import Mathlib

/-!
# Reversi: board model, move resolver, turn controller and AI move selection

A shallow embedding of `reversi.h`, `reversi.cpp` and `reversi_ai.cpp`.

* C `int` values are `Int`; no arithmetic in the embedded code can overflow
  (coordinates stay within -1..9, scores within -64..64).
* A `char board[8][8]` is a function `Fin 8 → Fin 8 → Int`.  The piece codes
  0, 1, 2 fit in a `char`, so the `int` to `char` narrowing of a store is the
  identity and is not modelled.
* Functions that take the board by pointer return the board they leave behind
  next to their C return value.
* A function whose C code has a loop that is not bounded by its form, or a
  dereference of a list node that could be NULL, returns an `Option`, and so
  does every function that calls one: `none` stands for a run that has no
  result in C.  The theorems show that the result is `some`.
-/

namespace Reversi

/-! ## reversi.h -/

abbrev BOARD_SIZE : Int := 8
abbrev PIECE_EMPTY : Int := 0
abbrev PIECE_WHITE : Int := 1
abbrev PIECE_BLACK : Int := 2
abbrev MOVE_PASS : Int := -1
abbrev AI_EASY : Int := 1
abbrev AI_MEDIUM : Int := 2
abbrev AI_HARD : Int := 3
abbrev AI_EXPERT : Int := 4

/-- The array `char board[BOARD_SIZE][BOARD_SIZE]`, indexed `board[x][y]`. -/
abbrev Board := Fin 8 → Fin 8 → Int

/-- The struct `_State`: the board and the piece of the current player. -/
structure State where
  board : Board
  turn : Int

/-- The read `board[x][y]` with `int` indices.  Every read of the embedded code
is at indices within 0..7; outside that range C gives the read no meaning and
this function answers 0. -/
def getCell (board : Board) (x y : Int) : Int :=
  if h : 0 ≤ x ∧ x < 8 ∧ 0 ≤ y ∧ y < 8 then
    board ⟨x.toNat, by omega⟩ ⟨y.toNat, by omega⟩
  else 0

/-- The store `board[x][y] = v` with `int` indices.  Every store of the embedded
code is at indices within 0..7; outside that range no cell is written. -/
def setCell (board : Board) (x y v : Int) : Board :=
  fun i j => if (i.val : Int) = x ∧ (j.val : Int) = y then v else board i j

/-- The cells in the order of the nested loops
`for (x = 0; x < 8; x++) for (y = 0; y < 8; y++)`: x outer, y inner. -/
def scanOrder : List (Int × Int) :=
  (List.range 8).flatMap fun (x : Nat) => (List.range 8).map fun (y : Nat) => ((x : Int), (y : Int))

/-! ## reversi.cpp: board functions -/

/-- The body of the two loops of `boardReset` at cell (x, y). -/
def boardResetCell (board : Board) (x y : Int) : Board :=
  if (x = 3 ∧ y = 3) ∨ (x = 4 ∧ y = 4) then setCell board x y PIECE_WHITE
  else if (x = 3 ∧ y = 4) ∨ (x = 4 ∧ y = 3) then setCell board x y PIECE_BLACK
  else setCell board x y PIECE_EMPTY

/-- `boardReset`: resets the board to the initial state of the game. -/
def boardReset (board : Board) : Board :=
  scanOrder.foldl (fun b c => boardResetCell b c.1 c.2) board

/-- `boardCopy`: copies the elements of `input` to `output`; the result is the
new content of `output`. -/
def boardCopy (output input : Board) : Board :=
  scanOrder.foldl (fun b c => setCell b c.1 c.2 (getCell input c.1 c.2)) output

/-- The inner loop of `doPieceTurnovers`,
`for (j = i - 1; j > 0; j--) board[x + j*dx][y + j*dy] = piece`,
started at `j`. -/
def changeTiles (board : Board) (x y dx dy piece : Int) : Nat → Board
  | 0 => board
  | j + 1 =>
    changeTiles (setCell board (x + ((j + 1 : Nat) : Int) * dx) (y + ((j + 1 : Nat) : Int) * dy) piece)
      x y dx dy piece j

/-- The outer loop of `doPieceTurnovers` from iteration `i` on, with a budget
of loop tests; `none` when the budget runs out. -/
def doPieceTurnoversLoop (board : Board) (x y dx dy piece : Int) (change : Bool) :
    Nat → Nat → Option (Board × Int)
  | 0, _ => none
  | fuel + 1, i =>
    if 0 ≤ x + (i : Int) * dx ∧ x + (i : Int) * dx < BOARD_SIZE ∧
        0 ≤ y + (i : Int) * dy ∧ y + (i : Int) * dy < BOARD_SIZE then
      if getCell board (x + (i : Int) * dx) (y + (i : Int) * dy) = piece then
        some (if change = true then changeTiles board x y dx dy piece (i - 1) else board,
          (i : Int) - 1)
      else if getCell board (x + (i : Int) * dx) (y + (i : Int) * dy) = PIECE_EMPTY then
        some (board, 0)
      else doPieceTurnoversLoop board x y dx dy piece change fuel (i + 1)
    else some (board, 0)

/-- `doPieceTurnovers`: turns over pieces in the given direction and returns the
number of pieces turned over.  The loop is given 9 loop tests, which is one more
than any direction other than (0, 0) can use on an 8 x 8 board. -/
def doPieceTurnovers (board : Board) (x y dx dy piece : Int) (change : Bool) :
    Option (Board × Int) :=
  doPieceTurnoversLoop board x y dx dy piece change 9 1

/-- `boardCheckMove`: checks if the given move is valid and returns the score
that would be earned; `change` says whether tiles are changed. -/
def boardCheckMove (board : Board) (x y piece : Int) (change : Bool) : Option (Board × Int) :=
  if piece = PIECE_EMPTY ∨ getCell board x y ≠ PIECE_EMPTY then some (board, 0)
  else
    (doPieceTurnovers board x y 1 0 piece change).bind fun r1 =>
    (doPieceTurnovers r1.1 x y (-1) 0 piece change).bind fun r2 =>
    (doPieceTurnovers r2.1 x y 0 1 piece change).bind fun r3 =>
    (doPieceTurnovers r3.1 x y 0 (-1) piece change).bind fun r4 =>
    (doPieceTurnovers r4.1 x y 1 1 piece change).bind fun r5 =>
    (doPieceTurnovers r5.1 x y 1 (-1) piece change).bind fun r6 =>
    (doPieceTurnovers r6.1 x y (-1) 1 piece change).bind fun r7 =>
    (doPieceTurnovers r7.1 x y (-1) (-1) piece change).bind fun r8 =>
    some (r8.1, 0 + r1.2 + r2.2 + r3.2 + r4.2 + r5.2 + r6.2 + r7.2 + r8.2)

/-- `boardPlace`: places a piece on the board. -/
def boardPlace (board : Board) (x y piece : Int) : Option (Board × Int) :=
  (boardCheckMove board x y piece true).bind fun r =>
    if r.2 > 0 then some (setCell r.1 x y piece, r.2) else some (r.1, r.2)

/-! ## reversi.cpp: game functions -/

/-- `gameNextTurn`: advances to the next turn. -/
def gameNextTurn (state : State) : State :=
  if state.turn = PIECE_WHITE then { state with turn := PIECE_BLACK }
  else { state with turn := PIECE_WHITE }

/-- `gameReset`: resets the game. -/
def gameReset (state : State) : State :=
  { board := boardReset state.board, turn := PIECE_WHITE }

/-- The two loops of `playerCanMove` over the cells still to visit; the C
function returns from inside the loops at the first positive score. -/
def playerCanMoveLoop (piece : Int) : List (Int × Int) → Board → Option (Board × Bool)
  | [], board => some (board, false)
  | c :: rest, board =>
    (boardCheckMove board c.1 c.2 piece false).bind fun r =>
      if r.2 > 0 then some (r.1, true) else playerCanMoveLoop piece rest r.1

/-- `playerCanMove`: checks if a player with the given piece can make a move. -/
def playerCanMove (board : Board) (piece : Int) : Option (Board × Bool) :=
  playerCanMoveLoop piece scanOrder board

/-- The inner loop `for (int y = 0; y < BOARD_SIZE; y++)` of the forced branch of
`gameDoCurrentTurn`, from the loop test on, with the loop variables `x` and `y`
as state: the body sets both to `BOARD_SIZE` after a placement that scored.
The result is the board and `x`; `none` when the budget of loop tests runs out. -/
def forcedMoveInner (turn : Int) : Nat → Board → Int → Int → Option (Board × Int)
  | 0, _, _, _ => none
  | fuel + 1, board, x, y =>
    if y < BOARD_SIZE then
      (boardPlace board x y turn).bind fun r =>
        if r.2 > 0 then forcedMoveInner turn fuel r.1 BOARD_SIZE (BOARD_SIZE + 1)
        else forcedMoveInner turn fuel r.1 x (y + 1)
    else some (board, x)

/-- The outer loop `for (int x = 0; x < BOARD_SIZE; x++)` of the forced branch of
`gameDoCurrentTurn`, from the loop test on; `none` when the budget of loop tests
runs out. -/
def forcedMoveOuter (turn : Int) : Nat → Board → Int → Option Board
  | 0, _, _ => none
  | fuel + 1, board, x =>
    if x < BOARD_SIZE then
      (forcedMoveInner turn 9 board x 0).bind fun r => forcedMoveOuter turn fuel r.1 (r.2 + 1)
    else some board

/-- `gameDoCurrentTurn`: makes a move for the current player; `force` says
whether the player is forced to make a move. -/
def gameDoCurrentTurn (state : State) (x y : Int) (force : Bool) : Option State :=
  if x = MOVE_PASS ∨ y = MOVE_PASS then
    (playerCanMove state.board state.turn).bind fun r =>
      if r.2 = false then some (gameNextTurn { state with board := r.1 })
      else some { state with board := r.1 }
  else
    (boardPlace state.board x y state.turn).bind fun r =>
      if r.2 > 0 then some (gameNextTurn { state with board := r.1 })
      else if force = true then
        (forcedMoveOuter state.turn 9 r.1 0).bind fun b =>
          some (gameNextTurn { state with board := b })
      else some { state with board := r.1 }

/-! ## reversi_ai.cpp -/

abbrev MAX_DEPTH : Int := 5

/-- The struct `_Move` without its `next` pointer: a linked list of moves is a
`List Move`, NULL is the empty list. -/
structure Move where
  x : Int
  y : Int
  score : Int
deriving DecidableEq, Repr

/-- `insertMove`: inserts a new move node at the head of the list. -/
def insertMove (head : List Move) (x y score : Int) : List Move :=
  { x := x, y := y, score := score } :: head

/-- `getOpponentPiece`: gets the piece of the opposite color. -/
def getOpponentPiece (piece : Int) : Int :=
  if piece = PIECE_WHITE then PIECE_BLACK else PIECE_WHITE

/-- The two loops of `getValidMoves` over the cells still to visit. -/
def getValidMovesLoop (piece : Int) :
    List (Int × Int) → Board → List Move → Option (Board × List Move)
  | [], board, validMoves => some (board, validMoves)
  | c :: rest, board, validMoves =>
    (boardCheckMove board c.1 c.2 piece false).bind fun r =>
      if r.2 > 0 then getValidMovesLoop piece rest r.1 (insertMove validMoves c.1 c.2 r.2)
      else getValidMovesLoop piece rest r.1 validMoves

/-- `getValidMoves`: gets a linked list of moves valid for the player with the
given piece. -/
def getValidMoves (board : Board) (piece : Int) : Option (Board × List Move) :=
  getValidMovesLoop piece scanOrder board []

/-- The walk `for (i = 0; i < index; i++) move = move->next` of
`aiMakeMove_Easy` followed by the read of `*move`. -/
def advanceMove : List Move → Int → Int → Option Move
  | [], _, _ => none
  | m :: rest, i, index => if i < index then advanceMove rest (i + 1) index else some m

/-- `aiMakeMove_Easy`: chooses a random valid move; `rnd` is the value of
`rand()`.  The result is the new content of `*x` and `*y`.  The parameters
`board` and `piece` of the C function are not used by it and are left out. -/
def aiMakeMove_Easy (validMoves : List Move) (rnd : Nat) : Option (Int × Int) :=
  let count : Int := validMoves.length
  if count > 0 then
    (advanceMove validMoves 0 ((rnd : Int) % count)).bind fun move => some (move.x, move.y)
  else some (MOVE_PASS, MOVE_PASS)

/-- The first loop of `aiMakeMove_Medium` over the nodes still to visit, with
`best` (NULL is `none`) and `count` as state. -/
def findBestLoop : List Move → Option Move → Int → Option Move × Int
  | [], best, count => (best, count)
  | move :: rest, best, count =>
    match best with
    | none => findBestLoop rest (some move) 1
    | some b =>
      if move.score > b.score then findBestLoop rest (some move) 1
      else if move.score = b.score then findBestLoop rest best (count + 1)
      else findBestLoop rest best count

/-- The loop `while (index >= 0)` of `aiMakeMove_Medium` and `aiMakeMove_Hard`
from the loop test on, followed by the read of `*move`; `none` when `move` is
NULL at a dereference. -/
def selectTiedLoop (bestScore : Int) : List Move → Int → Option Move
  | [], _ => none
  | move :: rest, index =>
    if index ≥ 0 then
      if (if move.score = bestScore then index - 1 else index) ≥ 0 then
        selectTiedLoop bestScore rest (if move.score = bestScore then index - 1 else index)
      else some move
    else some move

/-- `aiMakeMove_Medium`: chooses a valid move that yields the most points;
`rnd` is the value of `rand()`.  The parameters `board` and `piece` of the C
function are not used by it and are left out. -/
def aiMakeMove_Medium (validMoves : List Move) (rnd : Nat) : Option (Int × Int) :=
  match findBestLoop validMoves none 0 with
  | (some best, count) =>
    (selectTiedLoop best.score validMoves ((rnd : Int) % count)).bind fun move =>
      some (move.x, move.y)
  | (none, _) => some (MOVE_PASS, MOVE_PASS)

/-- The loop of `getHighestScoringMove` over the nodes still to visit. -/
def highestLoop : List Move → Option Move → Option Move
  | [], best => best
  | move :: rest, best =>
    match best with
    | none => highestLoop rest (some move)
    | some b => if move.score > b.score then highestLoop rest (some move) else highestLoop rest best

/-- `getHighestScoringMove`: gets the value of the highest scoring move. -/
def getHighestScoringMove (board : Board) (piece : Int) : Option (Board × Int) :=
  (getValidMoves board piece).bind fun r =>
    match highestLoop r.2 none with
    | some best => some (r.1, best.score)
    | none => some (r.1, 0)

/-- The first loop of `aiMakeMove_Hard` over the nodes still to visit.  It
rewrites the score of each node it visits, so next to `best` and `count` it
gives back the visited nodes with their new scores, in list order.  The local
`tempBoard` is filled by `boardCopy` before its first use; its content before
that is taken as all zero. -/
def hardLoop (board : Board) (piece : Int) :
    List Move → Option Move → Int → Option (List Move × Option Move × Int)
  | [], best, count => some ([], best, count)
  | move :: rest, best, count =>
    (boardPlace (boardCopy (fun _ _ => 0) board) move.x move.y piece).bind fun t =>
    (getHighestScoringMove t.1 (getOpponentPiece piece)).bind fun h =>
      let scored : Move := { move with score := move.score - h.2 }
      let next : Option Move × Int :=
        match best with
        | none => (some scored, 1)
        | some b =>
          if scored.score > b.score then (some scored, 1)
          else if scored.score = b.score then (best, count + 1)
          else (best, count)
      (hardLoop board piece rest next.1 next.2).bind fun r => some (scored :: r.1, r.2.1, r.2.2)

/-- `aiMakeMove_Hard`: looks one move ahead; `rnd` is the value of `rand()`. -/
def aiMakeMove_Hard (board : Board) (validMoves : List Move) (piece : Int) (rnd : Nat) :
    Option (Int × Int) :=
  (hardLoop board piece validMoves none 0).bind fun r =>
    match r.2.1 with
    | some best =>
      (selectTiedLoop best.score r.1 ((rnd : Int) % r.2.2)).bind fun move => some (move.x, move.y)
    | none => some (MOVE_PASS, MOVE_PASS)

/-- The loop of `getBestMove` over the nodes still to visit, with `best` as
state; `search` is the nested call `getBestMove(tempBoard, opponent, depth + 1)`
as a function of `tempBoard`.  The local `tempBoard` is filled by `boardCopy`
before its first use; its content before that is taken as all zero. -/
def bestMoveLoop (search : Board → Option (Board × Move)) (board : Board) (piece : Int) :
    List Move → Move → Option Move
  | [], best => some best
  | move :: rest, best =>
    (boardPlace (boardCopy (fun _ _ => 0) board) move.x move.y piece).bind fun t =>
    (search t.1).bind fun m =>
      if best.x = MOVE_PASS ∨ move.score - m.2.score > best.score then
        bestMoveLoop search board piece rest
          { x := move.x, y := move.y, score := move.score - m.2.score }
      else bestMoveLoop search board piece rest best

/-- `getBestMove` with a budget of nested calls; `none` when the budget runs
out. -/
def getBestMoveFuel : Nat → Board → Int → Int → Option (Board × Move)
  | 0, _, _, _ => none
  | fuel + 1, board, piece, depth =>
    if depth > MAX_DEPTH then some (board, { x := MOVE_PASS, y := MOVE_PASS, score := 0 })
    else
      (getValidMoves board piece).bind fun v =>
        (bestMoveLoop (fun t => getBestMoveFuel fuel t (getOpponentPiece piece) (depth + 1))
          v.1 piece v.2 { x := MOVE_PASS, y := MOVE_PASS, score := 0 }).bind fun best =>
            some (v.1, best)

/-- `getBestMove`: gets the best move that a player can make using a minimax
algorithm.  The budget of nested calls is one call for this depth and one for
each depth above it up to the first one above `MAX_DEPTH`. -/
def getBestMove (board : Board) (piece depth : Int) : Option (Board × Move) :=
  getBestMoveFuel ((MAX_DEPTH + 1 - depth).toNat + 1) board piece depth

/-- `aiMakeMove_Expert`: analyses the game tree up to the maximum depth.  The
parameter `validMoves` of the C function is not used by it and is left out. -/
def aiMakeMove_Expert (board : Board) (piece : Int) : Option (Board × Int × Int) :=
  (getBestMove board piece 0).bind fun r => some (r.1, r.2.x, r.2.y)

/-- `aiMakeMove`: calls for the AI to make a move.  `x` and `y` are the content
of `*x` and `*y` before the call and `rnd` is the value `rand()` gives when it
is called; the result is the board and the content of `*x` and `*y` after the
call. -/
def aiMakeMove (board : Board) (difficulty piece : Int) (x y : Int) (rnd : Nat) :
    Option (Board × Int × Int) :=
  (getValidMoves board piece).bind fun v =>
    if difficulty = AI_EASY then
      (aiMakeMove_Easy v.2 rnd).bind fun r => some (v.1, r.1, r.2)
    else if difficulty = AI_MEDIUM then
      (aiMakeMove_Medium v.2 rnd).bind fun r => some (v.1, r.1, r.2)
    else if difficulty = AI_HARD then
      (aiMakeMove_Hard v.1 v.2 piece rnd).bind fun r => some (v.1, r.1, r.2)
    else if difficulty = AI_EXPERT then
      aiMakeMove_Expert v.1 piece
    else some (v.1, x, y)

/-! ## Vocabulary of the specification -/

/-- The coordinates (x, y) are on the board. -/
def InRange (x y : Int) : Prop := 0 ≤ x ∧ x < 8 ∧ 0 ≤ y ∧ y < 8

instance (x y : Int) : Decidable (InRange x y) := by unfold InRange; infer_instance

/-- Every cell of the grid is Empty, Light or Dark. -/
def ValidBoard (g : Board) : Prop :=
  ∀ i j : Fin 8, g i j = PIECE_EMPTY ∨ g i j = PIECE_WHITE ∨ g i j = PIECE_BLACK

instance (g : Board) : Decidable (ValidBoard g) := by unfold ValidBoard; infer_instance

/-- The 8 compass directions, in the order `boardCheckMove` visits them. -/
def directions : List (Int × Int) :=
  [(1, 0), (-1, 0), (0, 1), (0, -1), (1, 1), (1, -1), (-1, 1), (-1, -1)]

/-- The run of length `k` from (x, y) in direction (dx, dy) is validly flanked
for colour `c`: the cells at distance 1..k are on the board and hold the
opponent's colour, and the cell at distance k + 1 is on the board and holds
`c`. -/
def Flanked (g : Board) (x y dx dy c : Int) (k : Nat) : Prop :=
  (∀ i ∈ Finset.Icc 1 k,
    InRange (x + (i : Int) * dx) (y + (i : Int) * dy) ∧
      getCell g (x + (i : Int) * dx) (y + (i : Int) * dy) = getOpponentPiece c) ∧
  InRange (x + ((k + 1 : Nat) : Int) * dx) (y + ((k + 1 : Nat) : Int) * dy) ∧
  getCell g (x + ((k + 1 : Nat) : Int) * dx) (y + ((k + 1 : Nat) : Int) * dy) = c

instance (g : Board) (x y dx dy c : Int) (k : Nat) : Decidable (Flanked g x y dx dy c k) := by
  unfold Flanked; infer_instance

/-- The number n_D of the flip symmetry property: `k` when the run of length
`k` in the direction is validly flanked, 0 when there is no such run (the scan
meets an Empty cell or the edge first). -/
def flankedRunLength (g : Board) (x y dx dy c : Int) : Int :=
  match (List.range 8).find? fun k => decide (Flanked g x y dx dy c k) with
  | some k => (k : Int)
  | none => 0

/-- The reference flip count: 0 if the target cell is not Empty, otherwise the
sum over the 8 compass directions of n_D. -/
def refFlipCount (g : Board) (x y c : Int) : Int :=
  if getCell g x y ≠ PIECE_EMPTY then 0
  else (directions.map fun d => flankedRunLength g x y d.1 d.2 c).sum

/-- The cell (u, v) is one of the first `n` cells from (x, y) in direction
(dx, dy), the target itself not counted. -/
def OnRay (x y dx dy : Int) (n : Nat) (u v : Int) : Prop :=
  ∃ j ∈ Finset.Icc 1 n, u = x + (j : Int) * dx ∧ v = y + (j : Int) * dy

instance (x y dx dy : Int) (n : Nat) (u v : Int) : Decidable (OnRay x y dx dy n u v) := by
  unfold OnRay; infer_instance

/-- The cell (u, v) lies on a validly flanked run from the target (x, y). -/
def OnFlankedRun (g : Board) (x y c : Int) (u v : Int) : Prop :=
  ∃ d ∈ directions, ∃ k ∈ List.range 8, Flanked g x y d.1 d.2 c k ∧ OnRay x y d.1 d.2 k u v

instance (g : Board) (x y c u v : Int) : Decidable (OnFlankedRun g x y c u v) := by
  unfold OnFlankedRun; infer_instance

/-- The grid of a successful placement as the specification describes it: the
old grid with the target cell and every cell of every validly flanked run set
to `c`. -/
def placedBoard (g : Board) (x y c : Int) : Board :=
  fun i j =>
    if ((i.val : Int) = x ∧ (j.val : Int) = y) ∨ OnFlankedRun g x y c i.val j.val then c
    else g i j

/-- The move at `cell` is legal for `piece`: `boardCheckMove` without change
returns a positive score. -/
def isLegalMove (board : Board) (piece : Int) (cell : Int × Int) : Bool :=
  match boardCheckMove board cell.1 cell.2 piece false with
  | some r => decide (r.2 > 0)
  | none => false

/-- The first legal cell for `piece` in scan order, if there is one. -/
def firstLegalMove (board : Board) (piece : Int) : Option (Int × Int) :=
  scanOrder.find? (isLegalMove board piece)

/-- The mover `piece` has a legal move somewhere on the grid. -/
def hasLegalMove (board : Board) (piece : Int) : Bool :=
  scanOrder.any (isLegalMove board piece)

/-- The standard opening grid: `boardReset` run on an all-Empty board. -/
def openingBoard : Board := boardReset fun _ _ => PIECE_EMPTY

/-- A grid where Dark has no legal move and Light has one: Light in the corner
(0, 0), Dark next to it at (1, 0), all other cells Empty. -/
def cornerBoard : Board :=
  setCell (setCell (fun _ _ => PIECE_EMPTY) 0 0 PIECE_WHITE) 1 0 PIECE_BLACK

/-! ## Auxiliary definitions of the proofs -/

/-- The value `boardReset` stores at cell (x, y). -/
def resetValue (x y : Int) : Int :=
  if (x = 3 ∧ y = 3) ∨ (x = 4 ∧ y = 4) then PIECE_WHITE
  else if (x = 3 ∧ y = 4) ∨ (x = 4 ∧ y = 3) then PIECE_BLACK
  else PIECE_EMPTY

/-- The count `doPieceTurnovers` returns for direction `d` without change. -/
def dirCount (board : Board) (x y piece : Int) (d : Int × Int) : Int :=
  match doPieceTurnovers board x y d.1 d.2 piece false with
  | some r => r.2
  | none => 0

/-- The score `boardCheckMove` returns without change, as the sum of the counts
of the 8 directions. -/
def moveScore (board : Board) (x y piece : Int) : Int :=
  if piece = 0 ∨ getCell board x y ≠ 0 then 0
  else (directions.map (dirCount board x y piece)).sum

/-- The calls of `doPieceTurnovers` in `boardCheckMove` for a list of directions,
with the running score. -/
def turnoversFrom (x y piece : Int) (change : Bool) :
    List (Int × Int) → Board → Int → Option (Board × Int)
  | [], board, score => some (board, score)
  | d :: ds, board, score =>
    (doPieceTurnovers board x y d.1 d.2 piece change).bind fun r =>
      turnoversFrom x y piece change ds r.1 (score + r.2)

/-- The cells of row `x` from column `y` on, `m` of them. -/
def rowFrom (x : Int) (y m : Nat) : List (Int × Int) :=
  (List.range' y m).map fun (y : Nat) => (x, (y : Int))

/-- The cells of the `m` rows from row `x` on, in scan order. -/
def cellsFrom (x m : Nat) : List (Int × Int) :=
  (List.range' x m).flatMap fun (x : Nat) => rowFrom (x : Int) 0 8

/-! ## Vocabulary of the claims on the AI engine -/

/-- The flip score of `cell` for `piece`: the score `boardCheckMove` returns
there without change. -/
def flipScore (board : Board) (piece : Int) (cell : Int × Int) : Int :=
  match boardCheckMove board cell.1 cell.2 piece false with
  | some r => r.2
  | none => 0

/-- The candidate move at `cell`: its coordinates with its flip score. -/
def moveAt (board : Board) (piece : Int) (cell : Int × Int) : Move :=
  { x := cell.1, y := cell.2, score := flipScore board piece cell }

/-- The enumeration of the legal moves as the specification describes it: the
legal cells in scan order (x outer, y inner), each with its flip score,
collected last in first out, so that the most recently discovered move is
first. -/
def refValidMoves (board : Board) (piece : Int) : List Move :=
  ((scanOrder.filter (isLegalMove board piece)).map (moveAt board piece)).reverse

/-- The largest score of the list from `init` on: `init` when no score of the
list is larger. -/
def listMax (init : Int) (l : List Move) : Int :=
  l.foldl (fun a m => max a m.score) init

/-- The maximal score of a list of candidates, 0 for the empty list. -/
def maxScore : List Move → Int
  | [] => 0
  | m :: ms => listMax m.score ms

/-- The candidates that tie for the maximal score, in enumeration order. -/
def tiedMoves (l : List Move) : List Move :=
  l.filter fun m => decide (m.score = maxScore l)

/-- The grid `boardPlace` leaves after a placement at (x, y) for `piece`. -/
def boardAfterPlace (board : Board) (x y piece : Int) : Board :=
  match boardPlace board x y piece with
  | some r => r.1
  | none => board

/-- The largest immediate flip score available to the opponent of `piece` on
the grid, 0 when the opponent has no legal move. -/
def opponentBest (board : Board) (piece : Int) : Int :=
  maxScore (refValidMoves board (getOpponentPiece piece))

/-- The candidate `m` re-scored as D(m): its own flip score less the opponent's
best immediate flip score on the grid obtained by placing `m`. -/
def differentialMove (board : Board) (piece : Int) (m : Move) : Move :=
  { m with score := m.score - opponentBest (boardAfterPlace board m.x m.y piece) piece }

/-- The candidates of the one-ply differential tier: the legal moves of the
enumeration, each re-scored as D(m). -/
def refHardMoves (board : Board) (piece : Int) : List Move :=
  (refValidMoves board piece).map (differentialMove board piece)

/-- The value V of the search tier with `n` plies left (`n` is 6 less the
depth): 0 when no ply is left or the colour has no legal move, otherwise the
maximum over the legal moves `m` of the flip score of `m` less the value for
the opponent, one ply further, on the grid obtained by placing `m`. -/
def refValue : Nat → Board → Int → Int
  | 0, _, _ => 0
  | n + 1, board, piece =>
    maxScore ((refValidMoves board piece).map fun m =>
      { m with score := m.score -
          refValue n (boardAfterPlace board m.x m.y piece) (getOpponentPiece piece) })

/-- The candidates of the search tier with `n + 1` plies left, each re-scored
with its effective value. -/
def refSearchMoves (n : Nat) (board : Board) (piece : Int) : List Move :=
  (refValidMoves board piece).map fun m =>
    { m with score := m.score -
        refValue n (boardAfterPlace board m.x m.y piece) (getOpponentPiece piece) }

/-- The answer of the search tier with `n` plies left: the Pass sentinel with
score 0 when no ply is left or there is no candidate, otherwise the first
candidate in enumeration order whose effective value is the maximum. -/
def refBestMove : Nat → Board → Int → Move
  | 0, _, _ => { x := MOVE_PASS, y := MOVE_PASS, score := 0 }
  | n + 1, board, piece =>
    match (refSearchMoves n board piece).find? fun m =>
        decide (m.score = maxScore (refSearchMoves n board piece)) with
    | some m => m
    | none => { x := MOVE_PASS, y := MOVE_PASS, score := 0 }

/-- A sequence of `gameDoCurrentTurn` calls, each with its coordinates and its
`force` flag, run from a state. -/
def runMoves : State → List (Int × Int × Bool) → Option State
  | s, [] => some s
  | s, m :: ms => (gameDoCurrentTurn s m.1 m.2.1 m.2.2).bind fun s2 => runMoves s2 ms

/-! ## Auxiliary definitions of the proofs on the AI engine -/

/-- The loop of `getBestMove` on candidates that carry their effective value. -/
def pickBest : List Move → Move → Move
  | [], best => best
  | m :: rest, best =>
    if best.x = MOVE_PASS ∨ m.score > best.score then
      pickBest rest { x := m.x, y := m.y, score := m.score }
    else pickBest rest best

/-! ## Vocabulary of the claims on counts and on the AI turn -/

/-- The number of cells of the board that hold `v`. -/
def countCells (board : Board) (v : Int) : Nat :=
  (Finset.univ.filter fun p : Fin 8 × Fin 8 => board p.1 p.2 = v).card

/-- A sequence of `boardPlace` calls, each with its target and colour, run from
a board; next to the board it leaves, the number of calls that returned a
positive count. -/
def runPlacements : Board → List (Int × Int × Int) → Option (Board × Nat)
  | board, [] => some (board, 0)
  | board, m :: ms =>
    (boardPlace board m.1 m.2.1 m.2.2).bind fun r =>
      (runPlacements r.1 ms).bind fun q => some (q.1, q.2 + if r.2 > 0 then 1 else 0)

/-! ## reversi.cpp: the AI turn -/

abbrev AI_DELAY : Int := 250

/-- `doAITurn`: makes a move for the AI if it is their turn and returns whether it
is their turn.  `ticks` is the value `SDL_GetTicks()` returns, an unsigned 32-bit
count of milliseconds, so the difference with `aiTicks` is taken modulo 2^32;
`rnd` is the value `rand()` gives when `aiMakeMove` calls it.  The local `board`
is filled by `boardCopy` before its first use; its content before that is taken
as all zero. -/
def doAITurn (state : State) (aiDifficulty aiPiece aiTicks : Int) (ticks rnd : Nat) :
    Option (State × Bool) :=
  if state.turn = aiPiece then
    if ((ticks : Int) - aiTicks) % 4294967296 ≥ AI_DELAY then
      (aiMakeMove (boardCopy (fun _ _ => 0) state.board) aiDifficulty aiPiece
          MOVE_PASS MOVE_PASS rnd).bind fun r =>
        (gameDoCurrentTurn state r.2.1 r.2.2 true).bind fun s => some (s, true)
    else some (state, true)
  else some (state, false)

/-! ## Cells -/

theorem getCell_eq (b : Board) (i j : Fin 8) : getCell b (i.val : Int) (j.val : Int) = b i j := by
  have hi := i.isLt
  have hj := j.isLt
  unfold getCell
  rw [dif_pos (by omega)]
  simp

theorem getCell_setCell (b : Board) (x y v u w : Int) :
    getCell (setCell b x y v) u w =
      if InRange u w ∧ u = x ∧ w = y then v else getCell b u w := by
  unfold getCell setCell InRange
  by_cases h : 0 ≤ u ∧ u < 8 ∧ 0 ≤ w ∧ w < 8
  · have e1 : ((u.toNat : Nat) : Int) = u := by omega
    have e2 : ((w.toNat : Nat) : Int) = w := by omega
    simp [h, e1, e2]
  · simp [h]

theorem board_ext (b1 b2 : Board)
    (h : ∀ u w : Int, InRange u w → getCell b1 u w = getCell b2 u w) : b1 = b2 := by
  funext i j
  have hi := i.isLt
  have hj := j.isLt
  have := h i.val j.val (by unfold InRange; omega)
  rwa [getCell_eq, getCell_eq] at this

theorem onRay_zero (x y dx dy u w : Int) : ¬ OnRay x y dx dy 0 u w := by
  rintro ⟨j, hj, _⟩
  rw [Finset.mem_Icc] at hj
  omega

theorem onRay_succ (x y dx dy u w : Int) (n : Nat) :
    OnRay x y dx dy (n + 1) u w ↔
      OnRay x y dx dy n u w ∨
        (u = x + ((n + 1 : Nat) : Int) * dx ∧ w = y + ((n + 1 : Nat) : Int) * dy) := by
  unfold OnRay
  constructor
  · rintro ⟨j, hj, hp⟩
    rw [Finset.mem_Icc] at hj
    rcases Nat.lt_or_ge j (n + 1) with hlt | hge
    · exact Or.inl ⟨j, Finset.mem_Icc.mpr ⟨hj.1, by omega⟩, hp⟩
    · have : j = n + 1 := by omega
      subst this
      exact Or.inr hp
  · rintro (⟨j, hj, hp⟩ | hp)
    · rw [Finset.mem_Icc] at hj
      exact ⟨j, Finset.mem_Icc.mpr ⟨hj.1, by omega⟩, hp⟩
    · exact ⟨n + 1, Finset.mem_Icc.mpr ⟨by omega, le_refl _⟩, hp⟩

theorem getCell_changeTiles (x y dx dy c : Int) (n : Nat) :
    ∀ (b : Board) (u w : Int), getCell (changeTiles b x y dx dy c n) u w =
      if InRange u w ∧ OnRay x y dx dy n u w then c else getCell b u w := by
  induction n with
  | zero =>
    intro b u w
    simp [changeTiles, onRay_zero]
  | succ n ih =>
    intro b u w
    rw [changeTiles, ih, getCell_setCell]
    simp only [onRay_succ]
    split_ifs <;> first | rfl | (exfalso; tauto)

/-! ## Directions and rays -/

theorem mem_directions (d : Int × Int) :
    d ∈ directions ↔
      d = (1, 0) ∨ d = (-1, 0) ∨ d = (0, 1) ∨ d = (0, -1) ∨
        d = (1, 1) ∨ d = (1, -1) ∨ d = (-1, 1) ∨ d = (-1, -1) := by
  simp [directions]

theorem ray_bound (d : Int × Int) (hd : d ∈ directions) (x y : Int) (hx : InRange x y)
    (i : Nat) (hi : InRange (x + (i : Int) * d.1) (y + (i : Int) * d.2)) : i ≤ 7 := by
  rw [mem_directions] at hd
  unfold InRange at hx hi
  rcases hd with rfl | rfl | rfl | rfl | rfl | rfl | rfl | rfl <;> dsimp only at hi <;> omega

theorem ray_disjoint (d e : Int × Int) (hd : d ∈ directions) (he : e ∈ directions)
    (hne : d ≠ e) (x y : Int) (i j : Nat) (hi : 1 ≤ i) (hj : 1 ≤ j) :
    ¬ (x + (i : Int) * d.1 = x + (j : Int) * e.1 ∧ y + (i : Int) * d.2 = y + (j : Int) * e.2) := by
  rw [mem_directions] at hd he
  rintro ⟨h1, h2⟩
  rcases hd with rfl | rfl | rfl | rfl | rfl | rfl | rfl | rfl <;>
    rcases he with rfl | rfl | rfl | rfl | rfl | rfl | rfl | rfl <;>
    first
    | exact hne rfl
    | (dsimp only at h1 h2; omega)

/-! ## The loop of doPieceTurnovers -/

theorem loop_zero (b : Board) (x y dx dy c : Int) (ch : Bool) (i : Nat) :
    doPieceTurnoversLoop b x y dx dy c ch 0 i = none := rfl

theorem loop_succ (b : Board) (x y dx dy c : Int) (ch : Bool) (fuel i : Nat) :
    doPieceTurnoversLoop b x y dx dy c ch (fuel + 1) i =
      if InRange (x + (i : Int) * dx) (y + (i : Int) * dy) then
        if getCell b (x + (i : Int) * dx) (y + (i : Int) * dy) = c then
          some (if ch = true then changeTiles b x y dx dy c (i - 1) else b, (i : Int) - 1)
        else if getCell b (x + (i : Int) * dx) (y + (i : Int) * dy) = 0 then some (b, 0)
        else doPieceTurnoversLoop b x y dx dy c ch fuel (i + 1)
      else some (b, 0) := by
  simp only [doPieceTurnoversLoop, InRange, BOARD_SIZE, PIECE_EMPTY]

theorem loop_change_eq (b : Board) (x y dx dy c : Int) :
    ∀ (fuel i : Nat), doPieceTurnoversLoop b x y dx dy c true fuel i =
      (doPieceTurnoversLoop b x y dx dy c false fuel i).map
        fun r => (changeTiles b x y dx dy c r.2.toNat, r.2) := by
  intro fuel
  induction fuel with
  | zero => intro i; simp [loop_zero]
  | succ fuel ih =>
    intro i
    rw [loop_succ, loop_succ]
    by_cases hr : InRange (x + (i : Int) * dx) (y + (i : Int) * dy)
    · rw [if_pos hr, if_pos hr]
      by_cases hp : getCell b (x + (i : Int) * dx) (y + (i : Int) * dy) = c
      · have : ((i : Int) - 1).toNat = i - 1 := by omega
        rw [if_pos hp, if_pos hp]
        simp [this]
      · rw [if_neg hp, if_neg hp]
        by_cases he : getCell b (x + (i : Int) * dx) (y + (i : Int) * dy) = 0
        · rw [if_pos he, if_pos he]
          simp [changeTiles]
        · rw [if_neg he, if_neg he]
          exact ih _
    · rw [if_neg hr, if_neg hr]
      simp [changeTiles]

theorem loop_false_board (b : Board) (x y dx dy c : Int) :
    ∀ (fuel i : Nat) (r : Board × Int), 1 ≤ i →
      doPieceTurnoversLoop b x y dx dy c false fuel i = some r → r.1 = b ∧ 0 ≤ r.2 := by
  intro fuel
  induction fuel with
  | zero => intro i r _ h; simp [loop_zero] at h
  | succ fuel ih =>
    intro i r hi h
    rw [loop_succ] at h
    by_cases hr : InRange (x + (i : Int) * dx) (y + (i : Int) * dy)
    · rw [if_pos hr] at h
      by_cases hp : getCell b (x + (i : Int) * dx) (y + (i : Int) * dy) = c
      · rw [if_pos hp] at h
        simp at h
        subst h
        exact ⟨rfl, by simp; omega⟩
      · rw [if_neg hp] at h
        by_cases he : getCell b (x + (i : Int) * dx) (y + (i : Int) * dy) = 0
        · rw [if_pos he] at h
          simp at h
          subst h
          exact ⟨rfl, le_refl _⟩
        · rw [if_neg he] at h
          exact ih _ _ (by omega) h
    · rw [if_neg hr] at h
      simp at h
      subst h
      exact ⟨rfl, le_refl _⟩

theorem loop_congr (b1 b2 : Board) (x y dx dy c : Int)
    (h : ∀ i : Nat, 1 ≤ i → getCell b1 (x + (i : Int) * dx) (y + (i : Int) * dy) =
      getCell b2 (x + (i : Int) * dx) (y + (i : Int) * dy)) :
    ∀ (fuel i : Nat), 1 ≤ i →
      (doPieceTurnoversLoop b1 x y dx dy c false fuel i).map Prod.snd =
        (doPieceTurnoversLoop b2 x y dx dy c false fuel i).map Prod.snd := by
  intro fuel
  induction fuel with
  | zero => intro i _; simp [loop_zero]
  | succ fuel ih =>
    intro i hi
    rw [loop_succ, loop_succ, h i hi]
    by_cases hr : InRange (x + (i : Int) * dx) (y + (i : Int) * dy)
    · rw [if_pos hr, if_pos hr]
      by_cases hp : getCell b2 (x + (i : Int) * dx) (y + (i : Int) * dy) = c
      · rw [if_pos hp, if_pos hp]
        simp
      · rw [if_neg hp, if_neg hp]
        by_cases he : getCell b2 (x + (i : Int) * dx) (y + (i : Int) * dy) = 0
        · rw [if_pos he, if_pos he]
          simp
        · rw [if_neg he, if_neg he]
          exact ih (i + 1) (by omega)
    · rw [if_neg hr, if_neg hr]
      simp

theorem loop_total (b : Board) (x y c : Int) (d : Int × Int) (hd : d ∈ directions)
    (hx : InRange x y) :
    ∀ (fuel i : Nat), 1 ≤ i → i ≤ 8 → 9 ≤ fuel + i →
      ∃ r, doPieceTurnoversLoop b x y d.1 d.2 c false fuel i = some r := by
  intro fuel
  induction fuel with
  | zero => intro i _ h8 h9; omega
  | succ fuel ih =>
    intro i h1 h8 h9
    rw [loop_succ]
    by_cases hr : InRange (x + (i : Int) * d.1) (y + (i : Int) * d.2)
    · rw [if_pos hr]
      by_cases hp : getCell b (x + (i : Int) * d.1) (y + (i : Int) * d.2) = c
      · rw [if_pos hp]
        exact ⟨_, rfl⟩
      · rw [if_neg hp]
        by_cases he : getCell b (x + (i : Int) * d.1) (y + (i : Int) * d.2) = 0
        · rw [if_pos he]
          exact ⟨_, rfl⟩
        · rw [if_neg he]
          have := ray_bound d hd x y hx i hr
          exact ih (i + 1) (by omega) (by omega) (by omega)
    · rw [if_neg hr]
      exact ⟨_, rfl⟩

theorem doPieceTurnovers_false (b : Board) (x y c : Int) (d : Int × Int)
    (hd : d ∈ directions) (hx : InRange x y) :
    doPieceTurnovers b x y d.1 d.2 c false = some (b, dirCount b x y c d) ∧
      0 ≤ dirCount b x y c d := by
  obtain ⟨r, hr⟩ := loop_total b x y c d hd hx 9 1 (by omega) (by omega) (by omega)
  have hb := loop_false_board b x y d.1 d.2 c 9 1 r (le_refl _) hr
  have hr2 : doPieceTurnovers b x y d.1 d.2 c false = some r := hr
  unfold dirCount
  rw [hr2]
  obtain ⟨rb, rn⟩ := r
  simp only at hb
  obtain ⟨rfl, hn⟩ := hb
  exact ⟨rfl, hn⟩

theorem doPieceTurnovers_true (b : Board) (x y c : Int) (d : Int × Int)
    (hd : d ∈ directions) (hx : InRange x y) :
    doPieceTurnovers b x y d.1 d.2 c true =
      some (changeTiles b x y d.1 d.2 c (dirCount b x y c d).toNat, dirCount b x y c d) := by
  have h := (doPieceTurnovers_false b x y c d hd hx).1
  unfold doPieceTurnovers at h ⊢
  rw [loop_change_eq, h]
  rfl

theorem dirCount_congr (b1 b2 : Board) (x y c : Int) (d : Int × Int)
    (h : ∀ i : Nat, 1 ≤ i → getCell b1 (x + (i : Int) * d.1) (y + (i : Int) * d.2) =
      getCell b2 (x + (i : Int) * d.1) (y + (i : Int) * d.2)) :
    dirCount b1 x y c d = dirCount b2 x y c d := by
  have := loop_congr b1 b2 x y d.1 d.2 c h 9 1 (le_refl _)
  unfold dirCount doPieceTurnovers
  cases h1 : doPieceTurnoversLoop b1 x y d.1 d.2 c false 9 1 <;>
    cases h2 : doPieceTurnoversLoop b2 x y d.1 d.2 c false 9 1 <;>
    simp [h1, h2] at this ⊢
  exact this

/-! ## boardCheckMove and boardPlace -/

theorem boardCheckMove_eq (b : Board) (x y c : Int) (ch : Bool) :
    boardCheckMove b x y c ch =
      if c = 0 ∨ getCell b x y ≠ 0 then some (b, 0)
      else turnoversFrom x y c ch directions b 0 := by
  rfl

theorem turnoversFrom_false (x y c : Int) (hx : InRange x y) (b : Board) :
    ∀ (ds : List (Int × Int)) (s : Int), (∀ d ∈ ds, d ∈ directions) →
      turnoversFrom x y c false ds b s = some (b, s + (ds.map (dirCount b x y c)).sum) := by
  intro ds
  induction ds with
  | nil => intro s _; simp [turnoversFrom]
  | cons d ds ih =>
    intro s hds
    have hd := (doPieceTurnovers_false b x y c d (hds d (List.mem_cons_self _ _)) hx).1
    rw [turnoversFrom, hd, Option.some_bind]
    rw [ih _ (fun e he => hds e (List.mem_cons_of_mem _ he))]
    simp [add_assoc]

theorem dirCount_sum_nonneg (b : Board) (x y c : Int) (hx : InRange x y) :
    ∀ ds : List (Int × Int), (∀ d ∈ ds, d ∈ directions) →
      0 ≤ (ds.map (dirCount b x y c)).sum := by
  intro ds
  induction ds with
  | nil => intro _; simp
  | cons d ds ih =>
    intro hds
    have hd := (doPieceTurnovers_false b x y c d (hds d (List.mem_cons_self _ _)) hx).2
    have := ih (fun e he => hds e (List.mem_cons_of_mem _ he))
    simp only [List.map_cons, List.sum_cons]
    omega

/-- The calls for a list of distinct directions with change: the counts are those
of the grid `g` the board agrees with on the rays still to scan, and the cells
changed are the first cells of each ray, as many as its count. -/
theorem turnoversFrom_true (g : Board) (x y c : Int) (hx : InRange x y) :
    ∀ (ds : List (Int × Int)) (b : Board) (s : Int), (∀ d ∈ ds, d ∈ directions) → ds.Nodup →
      (∀ d ∈ ds, ∀ i : Nat, 1 ≤ i → getCell b (x + (i : Int) * d.1) (y + (i : Int) * d.2) =
        getCell g (x + (i : Int) * d.1) (y + (i : Int) * d.2)) →
      ∃ b2, turnoversFrom x y c true ds b s = some (b2, s + (ds.map (dirCount g x y c)).sum) ∧
        ∀ u w : Int, getCell b2 u w =
          if InRange u w ∧ ∃ d ∈ ds, OnRay x y d.1 d.2 (dirCount g x y c d).toNat u w then c
          else getCell b u w := by
  intro ds
  induction ds with
  | nil =>
    intro b s _ _ _
    exact ⟨b, by simp [turnoversFrom], by simp⟩
  | cons d ds ih =>
    intro b s hds hnd hag
    have hdm := hds d (List.mem_cons_self _ _)
    have hcnt : dirCount b x y c d = dirCount g x y c d :=
      dirCount_congr b g x y c d (hag d (List.mem_cons_self _ _))
    rw [List.nodup_cons] at hnd
    have hag2 : ∀ e ∈ ds, ∀ i : Nat, 1 ≤ i →
        getCell (changeTiles b x y d.1 d.2 c (dirCount g x y c d).toNat)
          (x + (i : Int) * e.1) (y + (i : Int) * e.2) =
        getCell g (x + (i : Int) * e.1) (y + (i : Int) * e.2) := by
      intro e he i hi
      rw [getCell_changeTiles, if_neg, hag e (List.mem_cons_of_mem _ he) i hi]
      rintro ⟨_, j, hj, h1, h2⟩
      rw [Finset.mem_Icc] at hj
      have hne : e ≠ d := fun h => hnd.1 (h ▸ he)
      exact ray_disjoint e d (hds e (List.mem_cons_of_mem _ he)) hdm hne x y i j hi hj.1 ⟨h1, h2⟩
    obtain ⟨b2, h1, h2⟩ := ih (changeTiles b x y d.1 d.2 c (dirCount g x y c d).toNat)
      (s + dirCount g x y c d) (fun e he => hds e (List.mem_cons_of_mem _ he)) hnd.2 hag2
    refine ⟨b2, ?_, ?_⟩
    · rw [turnoversFrom, doPieceTurnovers_true b x y c d hdm hx, Option.some_bind, hcnt, h1]
      simp [add_assoc]
    · intro u w
      rw [h2, getCell_changeTiles]
      simp only [List.exists_mem_cons_iff]
      by_cases hr : InRange u w <;>
        by_cases hA : OnRay x y d.1 d.2 (dirCount g x y c d).toNat u w <;>
        by_cases hB : ∃ e ∈ ds, OnRay x y e.1 e.2 (dirCount g x y c e).toNat u w <;>
        simp [hr, hA, hB]

theorem directions_nodup : directions.Nodup := by decide

theorem ite_and_or (P Q R : Prop) [Decidable P] [Decidable Q] [Decidable R] (a b : Int) :
    (if P ∧ Q then a else if P ∧ R then a else b) = if P ∧ (Q ∨ R) then a else b := by
  by_cases hP : P <;> by_cases hQ : Q <;> by_cases hR : R <;> simp [hP, hQ, hR]

theorem moveScore_nonneg (b : Board) (x y c : Int) (hx : InRange x y) : 0 ≤ moveScore b x y c := by
  unfold moveScore
  split_ifs
  · exact le_refl _
  · exact dirCount_sum_nonneg b x y c hx directions (fun _ h => h)

theorem boardCheckMove_false (b : Board) (x y c : Int) (hx : InRange x y) :
    boardCheckMove b x y c false = some (b, moveScore b x y c) := by
  rw [boardCheckMove_eq]
  unfold moveScore
  split_ifs
  · rfl
  · rw [turnoversFrom_false x y c hx b directions 0 (fun _ h => h)]
    simp

theorem onRay_zero_count (b : Board) (x y c : Int) (hx : InRange x y) :
    ∀ ds : List (Int × Int), (∀ d ∈ ds, d ∈ directions) →
      (ds.map (dirCount b x y c)).sum = 0 → ∀ d ∈ ds, dirCount b x y c d = 0 := by
  intro ds
  induction ds with
  | nil => intro _ _ d hd; simp at hd
  | cons e ds ih =>
    intro hds hsum d hd
    have he := (doPieceTurnovers_false b x y c e (hds e (List.mem_cons_self _ _)) hx).2
    have hrest := dirCount_sum_nonneg b x y c hx ds (fun a ha => hds a (List.mem_cons_of_mem _ ha))
    simp only [List.map_cons, List.sum_cons] at hsum
    rcases List.mem_cons.mp hd with rfl | hd
    · omega
    · exact ih (fun a ha => hds a (List.mem_cons_of_mem _ ha)) (by omega) d hd

theorem boardCheckMove_true (b : Board) (x y c : Int) (hx : InRange x y) :
    ∃ b2, boardCheckMove b x y c true = some (b2, moveScore b x y c) ∧
      (moveScore b x y c = 0 → b2 = b) ∧
      (0 < moveScore b x y c → getCell b x y = 0 ∧ ∀ u w : Int, getCell b2 u w =
        if InRange u w ∧ ∃ d ∈ directions, OnRay x y d.1 d.2 (dirCount b x y c d).toNat u w then c
        else getCell b u w) := by
  rw [boardCheckMove_eq]
  unfold moveScore
  by_cases h : c = 0 ∨ getCell b x y ≠ 0
  · rw [if_pos h, if_pos h]
    exact ⟨b, rfl, fun _ => rfl, fun h0 => absurd h0 (lt_irrefl _)⟩
  · rw [if_neg h, if_neg h]
    obtain ⟨b2, h1, h2⟩ := turnoversFrom_true b x y c hx directions b 0 (fun _ hd => hd)
      directions_nodup (fun _ _ _ _ => rfl)
    refine ⟨b2, by simpa using h1, ?_, ?_⟩
    · intro hz
      apply board_ext
      intro u w _
      rw [h2, if_neg]
      rintro ⟨_, d, hd, hray⟩
      rw [onRay_zero_count b x y c hx directions (fun _ hd => hd) hz d hd] at hray
      exact onRay_zero _ _ _ _ _ _ hray
    · intro _
      refine ⟨?_, h2⟩
      by_contra hne
      exact h (Or.inr hne)

theorem boardPlace_eq (b : Board) (x y c : Int) (hx : InRange x y) :
    ∃ b2, boardPlace b x y c = some (b2, moveScore b x y c) ∧
      (moveScore b x y c = 0 → b2 = b) ∧
      (0 < moveScore b x y c → getCell b x y = 0 ∧ ∀ u w : Int, getCell b2 u w =
        if InRange u w ∧ ((u = x ∧ w = y) ∨
          ∃ d ∈ directions, OnRay x y d.1 d.2 (dirCount b x y c d).toNat u w) then c
        else getCell b u w) := by
  obtain ⟨b1, h1, h2, h3⟩ := boardCheckMove_true b x y c hx
  unfold boardPlace
  rw [h1, Option.some_bind]
  by_cases hpos : 0 < moveScore b x y c
  · refine ⟨setCell b1 x y c, by simp [hpos], fun hz => by omega, fun _ => ⟨(h3 hpos).1, ?_⟩⟩
    intro u w
    rw [getCell_setCell, (h3 hpos).2]
    exact ite_and_or _ _ _ _ _
  · have hz : moveScore b x y c = 0 := by
      have := moveScore_nonneg b x y c hx
      omega
    refine ⟨b1, by simp [hpos], fun _ => h2 hz, fun h => absurd h hpos⟩

theorem isLegalMove_eq (b : Board) (c : Int) (cell : Int × Int) (hx : InRange cell.1 cell.2) :
    isLegalMove b c cell = decide (0 < moveScore b cell.1 cell.2 c) := by
  unfold isLegalMove
  simp only [boardCheckMove_false b cell.1 cell.2 c hx]

/-! ## The reference flip count -/

theorem getOpponentPiece_ne (c : Int) (hc : c = PIECE_WHITE ∨ c = PIECE_BLACK) :
    getOpponentPiece c ≠ c ∧ getOpponentPiece c ≠ 0 := by
  rcases hc with rfl | rfl <;> simp [getOpponentPiece]

theorem getCell_valid (g : Board) (hv : ValidBoard g) (u w : Int) :
    getCell g u w = 0 ∨ getCell g u w = 1 ∨ getCell g u w = 2 := by
  unfold getCell
  split_ifs
  · exact hv _ _
  · exact Or.inl rfl

theorem getCell_opponent (g : Board) (hv : ValidBoard g) (c : Int)
    (hc : c = PIECE_WHITE ∨ c = PIECE_BLACK) (u w : Int)
    (h1 : getCell g u w ≠ c) (h2 : getCell g u w ≠ 0) : getCell g u w = getOpponentPiece c := by
  rcases getCell_valid g hv u w with h | h | h <;> rcases hc with rfl | rfl <;>
    simp_all [getOpponentPiece]

theorem flanked_lt_absurd (g : Board) (x y dx dy c : Int)
    (hc : c = PIECE_WHITE ∨ c = PIECE_BLACK) (k1 k2 : Nat)
    (h1 : Flanked g x y dx dy c k1) (h2 : Flanked g x y dx dy c k2) (hlt : k1 < k2) : False := by
  have ha := (h2.1 (k1 + 1) (Finset.mem_Icc.mpr ⟨by omega, by omega⟩)).2
  have hb := h1.2.2
  rw [hb] at ha
  exact (getOpponentPiece_ne c hc).1 ha.symm

theorem flankedRunLength_of_flanked (g : Board) (x y dx dy c : Int)
    (hc : c = PIECE_WHITE ∨ c = PIECE_BLACK) (k : Nat) (hk : k < 8)
    (h : Flanked g x y dx dy c k) : flankedRunLength g x y dx dy c = (k : Int) := by
  unfold flankedRunLength
  cases hf : (List.range 8).find? fun k => decide (Flanked g x y dx dy c k) with
  | none =>
    rw [List.find?_eq_none] at hf
    have := hf k (List.mem_range.mpr hk)
    simp [h] at this
  | some k2 =>
    have h2 : Flanked g x y dx dy c k2 := by simpa using List.find?_some hf
    rcases Nat.lt_trichotomy k k2 with hlt | heq | hgt
    · exact (flanked_lt_absurd g x y dx dy c hc k k2 h h2 hlt).elim
    · simp [heq]
    · exact (flanked_lt_absurd g x y dx dy c hc k2 k h2 h hgt).elim

theorem flankedRunLength_of_none (g : Board) (x y dx dy c : Int)
    (h : ∀ k, ¬ Flanked g x y dx dy c k) : flankedRunLength g x y dx dy c = 0 := by
  unfold flankedRunLength
  cases hf : (List.range 8).find? fun k => decide (Flanked g x y dx dy c k) with
  | none => rfl
  | some k2 =>
    have h2 : Flanked g x y dx dy c k2 := by simpa using List.find?_some hf
    exact (h k2 h2).elim

theorem not_flanked_of_stop (g : Board) (x y dx dy c : Int)
    (hc : c = PIECE_WHITE ∨ c = PIECE_BLACK) (i : Nat) (hi : 1 ≤ i)
    (inv : ∀ j : Nat, 1 ≤ j → j < i →
      getCell g (x + (j : Int) * dx) (y + (j : Int) * dy) = getOpponentPiece c)
    (hstop : ¬ (InRange (x + (i : Int) * dx) (y + (i : Int) * dy) ∧
      (getCell g (x + (i : Int) * dx) (y + (i : Int) * dy) = c ∨
        getCell g (x + (i : Int) * dx) (y + (i : Int) * dy) = getOpponentPiece c))) :
    ∀ k, ¬ Flanked g x y dx dy c k := by
  intro k hk
  rcases Nat.lt_trichotomy (k + 1) i with hlt | heq | hgt
  · have := inv (k + 1) (by omega) hlt
    rw [hk.2.2] at this
    exact (getOpponentPiece_ne c hc).1 this.symm
  · subst heq
    exact hstop ⟨hk.2.1, Or.inl hk.2.2⟩
  · have := hk.1 i (Finset.mem_Icc.mpr ⟨hi, by omega⟩)
    exact hstop ⟨this.1, Or.inr this.2⟩

theorem loop_spec (g : Board) (hv : ValidBoard g) (x y c : Int)
    (hc : c = PIECE_WHITE ∨ c = PIECE_BLACK) (d : Int × Int) (hd : d ∈ directions)
    (hx : InRange x y) :
    ∀ (fuel i : Nat), 1 ≤ i → i ≤ 8 → 9 ≤ fuel + i →
      (∀ j : Nat, 1 ≤ j → j < i →
        InRange (x + (j : Int) * d.1) (y + (j : Int) * d.2) ∧
          getCell g (x + (j : Int) * d.1) (y + (j : Int) * d.2) = getOpponentPiece c) →
      doPieceTurnoversLoop g x y d.1 d.2 c false fuel i =
        some (g, flankedRunLength g x y d.1 d.2 c) := by
  intro fuel
  induction fuel with
  | zero => intro i _ h8 h9; omega
  | succ fuel ih =>
    intro i h1 h8 h9 inv
    rw [loop_succ]
    by_cases hr : InRange (x + (i : Int) * d.1) (y + (i : Int) * d.2)
    · rw [if_pos hr]
      have hi7 := ray_bound d hd x y hx i hr
      by_cases hp : getCell g (x + (i : Int) * d.1) (y + (i : Int) * d.2) = c
      · rw [if_pos hp]
        have hfl : Flanked g x y d.1 d.2 c (i - 1) := by
          refine ⟨?_, ?_, ?_⟩
          · intro j hj
            rw [Finset.mem_Icc] at hj
            exact inv j hj.1 (by omega)
          · have : i - 1 + 1 = i := by omega
            rw [this]; exact hr
          · have : i - 1 + 1 = i := by omega
            rw [this]; exact hp
        rw [flankedRunLength_of_flanked g x y d.1 d.2 c hc (i - 1) (by omega) hfl]
        have : ((i - 1 : Nat) : Int) = (i : Int) - 1 := by omega
        simp [this]
      · rw [if_neg hp]
        by_cases he : getCell g (x + (i : Int) * d.1) (y + (i : Int) * d.2) = 0
        · rw [if_pos he]
          rw [flankedRunLength_of_none g x y d.1 d.2 c
            (not_flanked_of_stop g x y d.1 d.2 c hc i h1 (fun j a b => (inv j a b).2) ?_)]
          rintro ⟨_, h | h⟩
          · exact hp h
          · rw [he] at h
            exact (getOpponentPiece_ne c hc).2 h.symm
        · rw [if_neg he]
          apply ih (i + 1) (by omega) (by omega) (by omega)
          intro j hj1 hj2
          rcases Nat.lt_or_ge j i with hlt | hge
          · exact inv j hj1 hlt
          · have : j = i := by omega
            subst this
            exact ⟨hr, getCell_opponent g hv c hc _ _ hp he⟩
    · rw [if_neg hr]
      rw [flankedRunLength_of_none g x y d.1 d.2 c
        (not_flanked_of_stop g x y d.1 d.2 c hc i h1 (fun j a b => (inv j a b).2)
          (fun h => hr h.1))]

theorem dirCount_eq_flankedRunLength (g : Board) (hv : ValidBoard g) (x y c : Int)
    (hc : c = PIECE_WHITE ∨ c = PIECE_BLACK) (d : Int × Int) (hd : d ∈ directions)
    (hx : InRange x y) : dirCount g x y c d = flankedRunLength g x y d.1 d.2 c := by
  unfold dirCount doPieceTurnovers
  rw [loop_spec g hv x y c hc d hd hx 9 1 (le_refl _) (by omega) (by omega)
    (fun j a b => by omega)]

theorem moveScore_eq_refFlipCount (g : Board) (hv : ValidBoard g) (x y c : Int)
    (hc : c = PIECE_WHITE ∨ c = PIECE_BLACK) (hx : InRange x y) :
    moveScore g x y c = refFlipCount g x y c := by
  unfold moveScore refFlipCount
  have hc0 : c ≠ 0 := by rcases hc with rfl | rfl <;> decide
  by_cases h : getCell g x y ≠ 0
  · rw [if_pos (Or.inr h), if_pos h]
  · rw [if_neg (by tauto), if_neg h]
    congr 1
    apply List.map_congr_left
    intro d hd
    exact dirCount_eq_flankedRunLength g hv x y c hc d hd hx

/-! ## The scan order, boardReset and boardCopy -/

theorem scanOrder_inRange : ∀ cell ∈ scanOrder, InRange cell.1 cell.2 := by decide

theorem mem_scanOrder (u w : Int) (h : InRange u w) : (u, w) ∈ scanOrder := by
  unfold InRange at h
  have e1 : ((u.toNat : Nat) : Int) = u := by omega
  have e2 : ((w.toNat : Nat) : Int) = w := by omega
  have h1 : u.toNat < 8 := by omega
  have h2 : w.toNat < 8 := by omega
  exact List.mem_flatMap.mpr ⟨u.toNat, List.mem_range.mpr h1,
    List.mem_map.mpr ⟨w.toNat, List.mem_range.mpr h2, by rw [e1, e2]⟩⟩

theorem getCell_foldl_setCell (f : Int → Int → Int) :
    ∀ (l : List (Int × Int)) (b : Board) (u w : Int),
      getCell (l.foldl (fun b c => setCell b c.1 c.2 (f c.1 c.2)) b) u w =
        if InRange u w ∧ (u, w) ∈ l then f u w else getCell b u w := by
  intro l
  induction l with
  | nil => intro b u w; simp
  | cons c l ih =>
    intro b u w
    rw [List.foldl_cons, ih, getCell_setCell]
    by_cases hr : InRange u w
    · by_cases hm : (u, w) ∈ l
      · simp [hr, hm]
      · by_cases hc : (u, w) = c
        · subst hc
          simp [hr, hm]
        · have hc2 : ¬ (u = c.1 ∧ w = c.2) := fun h => hc (Prod.ext h.1 h.2)
          simp [hr, hm, hc, hc2]
    · simp [hr]

theorem boardResetCell_eq (b : Board) (x y : Int) :
    boardResetCell b x y = setCell b x y (resetValue x y) := by
  unfold boardResetCell resetValue
  split_ifs <;> rfl

theorem getCell_boardReset (b : Board) (u w : Int) (h : InRange u w) :
    getCell (boardReset b) u w = resetValue u w := by
  unfold boardReset
  simp only [boardResetCell_eq]
  rw [getCell_foldl_setCell resetValue, if_pos ⟨h, mem_scanOrder u w h⟩]

theorem boardReset_eq_openingBoard (b : Board) : boardReset b = openingBoard := by
  apply board_ext
  intro u w h
  rw [openingBoard, getCell_boardReset b u w h, getCell_boardReset _ u w h]

theorem boardCopy_eq (output input : Board) : boardCopy output input = input := by
  apply board_ext
  intro u w h
  unfold boardCopy
  rw [getCell_foldl_setCell (getCell input), if_pos ⟨h, mem_scanOrder u w h⟩]

/-! ## Claims on the move resolver -/

/-- C1: on a grid whose cells are Empty, Light or Dark, for an in-range target
and a colour `c`, `boardCheckMove` without change returns the grid as it was
and the reference flip count (0 if the target is not Empty, otherwise the sum
over the 8 directions of the length of the validly flanked run) when `c` is
Light or Dark, and 0 when `c` is Empty. -/
theorem boardCheckMove_eq_refFlipCount (g : Board) (hv : ValidBoard g) (x y : Int)
    (hx : InRange x y) (c : Int)
    (hc : c = PIECE_EMPTY ∨ c = PIECE_WHITE ∨ c = PIECE_BLACK) :
    boardCheckMove g x y c false =
      some (g, if c = PIECE_EMPTY then 0 else refFlipCount g x y c) := by
  rw [boardCheckMove_false g x y c hx]
  rcases hc with rfl | hc
  · simp [moveScore]
  · have hc0 : c ≠ PIECE_EMPTY := by rcases hc with rfl | rfl <;> decide
    rw [if_neg hc0, moveScore_eq_refFlipCount g hv x y c hc hx]

theorem boardCheckMove_eq_refFlipCount_witness :
    ValidBoard openingBoard ∧ InRange 2 4 ∧
      boardCheckMove openingBoard 2 4 PIECE_WHITE false =
        some (openingBoard,
          if PIECE_WHITE = PIECE_EMPTY then 0 else refFlipCount openingBoard 2 4 PIECE_WHITE) :=
  ⟨by decide!, by decide,
    boardCheckMove_eq_refFlipCount openingBoard (by decide!) 2 4 (by decide) PIECE_WHITE
      (by decide)⟩

theorem flanked_of_flankedRunLength (g : Board) (x y dx dy c : Int)
    (h : 0 < flankedRunLength g x y dx dy c) :
    (flankedRunLength g x y dx dy c).toNat ∈ List.range 8 ∧
      Flanked g x y dx dy c (flankedRunLength g x y dx dy c).toNat := by
  unfold flankedRunLength at h ⊢
  cases hf : (List.range 8).find? fun k => decide (Flanked g x y dx dy c k) with
  | none => rw [hf] at h; simp at h
  | some k =>
    have h2 : Flanked g x y dx dy c k := by simpa using List.find?_some hf
    have h3 := List.mem_of_find?_eq_some hf
    simpa using ⟨List.mem_range.mp h3, h2⟩

theorem onFlankedRun_iff (g : Board) (hv : ValidBoard g) (x y c : Int)
    (hc : c = PIECE_WHITE ∨ c = PIECE_BLACK) (hx : InRange x y) (u w : Int) :
    (∃ d ∈ directions, OnRay x y d.1 d.2 (dirCount g x y c d).toNat u w) ↔
      OnFlankedRun g x y c u w := by
  unfold OnFlankedRun
  constructor
  · rintro ⟨d, hd, hray⟩
    rw [dirCount_eq_flankedRunLength g hv x y c hc d hd hx] at hray
    have hpos : 0 < flankedRunLength g x y d.1 d.2 c := by
      by_contra hn
      have : (flankedRunLength g x y d.1 d.2 c).toNat = 0 := by omega
      rw [this] at hray
      exact onRay_zero _ _ _ _ _ _ hray
    obtain ⟨h1, h2⟩ := flanked_of_flankedRunLength g x y d.1 d.2 c hpos
    exact ⟨d, hd, _, h1, h2, hray⟩
  · rintro ⟨d, hd, k, hk, hfl, hray⟩
    refine ⟨d, hd, ?_⟩
    rw [dirCount_eq_flankedRunLength g hv x y c hc d hd hx,
      flankedRunLength_of_flanked g x y d.1 d.2 c hc k (List.mem_range.mp hk) hfl]
    simpa using hray

theorem getCell_placedBoard (g : Board) (x y c u w : Int) (h : InRange u w) :
    getCell (placedBoard g x y c) u w =
      if (u = x ∧ w = y) ∨ OnFlankedRun g x y c u w then c else getCell g u w := by
  unfold InRange at h
  unfold getCell placedBoard
  have e1 : ((u.toNat : Nat) : Int) = u := by omega
  have e2 : ((w.toNat : Nat) : Int) = w := by omega
  simp only [dif_pos h, e1, e2]

/-- C2: on a grid whose cells are Empty, Light or Dark, for an in-range target
and a colour `c` in Light, Dark, `boardPlace` returns, and when its count is
positive the grid it leaves is the old grid with the target cell and every cell
of every validly flanked run set to `c`, every other cell unchanged. -/
theorem boardPlace_eq_placedBoard (g : Board) (hv : ValidBoard g) (x y : Int)
    (hx : InRange x y) (c : Int) (hc : c = PIECE_WHITE ∨ c = PIECE_BLACK) :
    ∃ g2 k, boardPlace g x y c = some (g2, k) ∧ (0 < k → g2 = placedBoard g x y c) := by
  obtain ⟨b2, h1, _, h3⟩ := boardPlace_eq g x y c hx
  refine ⟨b2, _, h1, fun hpos => ?_⟩
  apply board_ext
  intro u w hr
  rw [(h3 hpos).2, getCell_placedBoard g x y c u w hr]
  simp only [onFlankedRun_iff g hv x y c hc hx u w, hr, true_and]

theorem boardPlace_eq_placedBoard_witness :
    ValidBoard openingBoard ∧ InRange 2 4 ∧
      ∃ g2 k, boardPlace openingBoard 2 4 PIECE_WHITE = some (g2, k) ∧
        (0 < k → g2 = placedBoard openingBoard 2 4 PIECE_WHITE) :=
  ⟨by decide!, by decide,
    boardPlace_eq_placedBoard openingBoard (by decide!) 2 4 (by decide) PIECE_WHITE
      (by decide)⟩

/-- C3: for an in-range target and any colour, `boardPlace` returns, and when it
returns 0 the grid it leaves is the grid before the call. -/
theorem boardPlace_zero_unchanged (g : Board) (x y : Int) (hx : InRange x y) (c : Int) :
    ∃ g2 k, boardPlace g x y c = some (g2, k) ∧ (k = 0 → g2 = g) := by
  obtain ⟨b2, h1, h2, _⟩ := boardPlace_eq g x y c hx
  exact ⟨b2, _, h1, h2⟩

theorem boardPlace_zero_unchanged_witness :
    InRange 0 0 ∧ ∃ g2 k, boardPlace openingBoard 0 0 PIECE_WHITE = some (g2, k) ∧
      (k = 0 → g2 = openingBoard) :=
  ⟨by decide, boardPlace_zero_unchanged openingBoard 0 0 (by decide) PIECE_WHITE⟩

/-- C4: for an in-range target and any colour, Empty included, `boardCheckMove`
without change returns and leaves the grid as it was. -/
theorem boardCheckMove_false_unchanged (g : Board) (x y : Int) (hx : InRange x y) (c : Int) :
    ∃ k, boardCheckMove g x y c false = some (g, k) :=
  ⟨_, boardCheckMove_false g x y c hx⟩

theorem boardCheckMove_false_unchanged_witness :
    InRange 2 4 ∧ ∃ k, boardCheckMove openingBoard 2 4 PIECE_WHITE false = some (openingBoard, k) :=
  ⟨by decide, boardCheckMove_false_unchanged openingBoard 2 4 (by decide) PIECE_WHITE⟩

/-! ## The turn controller -/

theorem playerCanMoveLoop_eq (c : Int) :
    ∀ (cells : List (Int × Int)) (b : Board), (∀ cell ∈ cells, InRange cell.1 cell.2) →
      playerCanMoveLoop c cells b = some (b, cells.any (isLegalMove b c)) := by
  intro cells
  induction cells with
  | nil => intro b _; rfl
  | cons cell cells ih =>
    intro b h
    have hr := h cell (List.mem_cons_self _ _)
    rw [playerCanMoveLoop, boardCheckMove_false b cell.1 cell.2 c hr, Option.some_bind,
      List.any_cons, isLegalMove_eq b c cell hr]
    by_cases hpos : 0 < moveScore b cell.1 cell.2 c
    · simp [hpos]
    · rw [ih b (fun e he => h e (List.mem_cons_of_mem _ he))]
      simp [hpos]

theorem playerCanMove_eq (b : Board) (c : Int) :
    playerCanMove b c = some (b, hasLegalMove b c) :=
  playerCanMoveLoop_eq c scanOrder b scanOrder_inRange

theorem forcedMoveInner_succ (turn : Int) (fuel : Nat) (b : Board) (x y : Int) :
    forcedMoveInner turn (fuel + 1) b x y =
      if y < 8 then
        (boardPlace b x y turn).bind fun r =>
          if 0 < r.2 then forcedMoveInner turn fuel r.1 8 (8 + 1)
          else forcedMoveInner turn fuel r.1 x (y + 1)
      else some (b, x) := rfl

theorem forcedMoveOuter_succ (turn : Int) (fuel : Nat) (b : Board) (x : Int) :
    forcedMoveOuter turn (fuel + 1) b x =
      if x < 8 then
        (forcedMoveInner turn 9 b x 0).bind fun r => forcedMoveOuter turn fuel r.1 (r.2 + 1)
      else some b := rfl

theorem rowFrom_succ (x : Int) (y m : Nat) :
    rowFrom x y (m + 1) = (x, (y : Int)) :: rowFrom x (y + 1) m := by
  simp [rowFrom, List.range'_succ]

theorem cellsFrom_succ (x m : Nat) :
    cellsFrom x (m + 1) = rowFrom (x : Int) 0 8 ++ cellsFrom (x + 1) m := by
  simp [cellsFrom, List.range'_succ]

theorem rowFrom_inRange (x : Nat) (hx : x < 8) (y m : Nat) (hy : y + m ≤ 8) :
    ∀ cell ∈ rowFrom (x : Int) y m, InRange cell.1 cell.2 := by
  intro cell hc
  simp only [rowFrom, List.mem_map, List.mem_range'_1] at hc
  obtain ⟨j, hj, rfl⟩ := hc
  unfold InRange
  dsimp only
  omega

theorem forcedMoveInner_spec (turn : Int) (x : Nat) (hx : x < 8) :
    ∀ (m y fuel : Nat) (b : Board), y + m = 8 → m + 1 ≤ fuel →
      forcedMoveInner turn fuel b x y =
        match (rowFrom x y m).find? (isLegalMove b turn) with
        | some cell => (boardPlace b cell.1 cell.2 turn).map fun r => (r.1, 8)
        | none => some (b, (x : Int)) := by
  intro m
  induction m with
  | zero =>
    intro y fuel b hy hf
    obtain ⟨f, rfl⟩ : ∃ f, fuel = f + 1 := ⟨fuel - 1, by omega⟩
    have h8 : ¬ ((y : Int) < 8) := by omega
    rw [forcedMoveInner_succ, if_neg h8]
    rfl
  | succ m ih =>
    intro y fuel b hy hf
    obtain ⟨f, rfl⟩ : ∃ f, fuel = f + 1 := ⟨fuel - 1, by omega⟩
    have h8 : (y : Int) < 8 := by omega
    have hr : InRange (x : Int) (y : Int) := by unfold InRange; omega
    obtain ⟨b2, hp, hz, _⟩ := boardPlace_eq b x y turn hr
    rw [forcedMoveInner_succ, if_pos h8, hp, Option.some_bind, rowFrom_succ, List.find?_cons,
      isLegalMove_eq b turn (x, y) hr]
    by_cases hpos : 0 < moveScore b x y turn
    · obtain ⟨f2, rfl⟩ : ∃ f2, f = f2 + 1 := ⟨f - 1, by omega⟩
      simp only [hpos, if_true, decide_True, hp, Option.map_some']
      rw [forcedMoveInner_succ, if_neg (by decide)]
    · have hb : b2 = b := hz (by have := moveScore_nonneg b x y turn hr; omega)
      subst hb
      simp only [hpos, if_false, decide_False]
      have := ih (y + 1) f b2 (by omega) (by omega)
      rw [← this]
      push_cast
      rfl

theorem forcedMoveOuter_spec (turn : Int) :
    ∀ (m x fuel : Nat) (b : Board), x + m = 8 → m + 1 ≤ fuel →
      forcedMoveOuter turn fuel b x =
        match (cellsFrom x m).find? (isLegalMove b turn) with
        | some cell => (boardPlace b cell.1 cell.2 turn).map Prod.fst
        | none => some b := by
  intro m
  induction m with
  | zero =>
    intro x fuel b hx hf
    obtain ⟨f, rfl⟩ : ∃ f, fuel = f + 1 := ⟨fuel - 1, by omega⟩
    have h8 : ¬ ((x : Int) < 8) := by omega
    rw [forcedMoveOuter_succ, if_neg h8]
    rfl
  | succ m ih =>
    intro x fuel b hx hf
    obtain ⟨f, rfl⟩ : ∃ f, fuel = f + 1 := ⟨fuel - 1, by omega⟩
    have h8 : (x : Int) < 8 := by omega
    have hin := forcedMoveInner_spec turn x (by omega) 8 0 9 b (by omega) (by omega)
    simp only [Nat.cast_zero] at hin
    rw [forcedMoveOuter_succ, if_pos h8, hin, cellsFrom_succ, List.find?_append]
    cases hf : (rowFrom (x : Int) 0 8).find? (isLegalMove b turn) with
    | none =>
      simp only [Option.some_bind, Option.none_or]
      have := ih (x + 1) f b (by omega) (by omega)
      rw [← this]
      push_cast
      rfl
    | some cell =>
      have hr := rowFrom_inRange x (by omega) 0 8 (by omega) cell (List.mem_of_find?_eq_some hf)
      obtain ⟨b2, hp, _, _⟩ := boardPlace_eq b cell.1 cell.2 turn hr
      obtain ⟨f2, rfl⟩ : ∃ f2, f = f2 + 1 := ⟨f - 1, by omega⟩
      simp only [hp, Option.map_some', Option.some_bind, Option.or]
      rw [forcedMoveOuter_succ, if_neg (by decide)]

theorem scanOrder_eq_cellsFrom : scanOrder = cellsFrom 0 8 := by decide

theorem forcedMoveOuter_eq (turn : Int) (b : Board) :
    forcedMoveOuter turn 9 b 0 =
      match firstLegalMove b turn with
      | some cell => (boardPlace b cell.1 cell.2 turn).map Prod.fst
      | none => some b := by
  have := forcedMoveOuter_spec turn 8 0 9 b (by omega) (by omega)
  rw [firstLegalMove, scanOrder_eq_cellsFrom]
  exact this

theorem firstLegalMove_spec (b : Board) (c : Int) (cell : Int × Int)
    (h : firstLegalMove b c = some cell) :
    InRange cell.1 cell.2 ∧ 0 < moveScore b cell.1 cell.2 c := by
  have hm := List.mem_of_find?_eq_some h
  have hp := List.find?_some h
  have hr := scanOrder_inRange cell hm
  rw [isLegalMove_eq b c cell hr] at hp
  exact ⟨hr, by simpa using hp⟩

theorem hasLegalMove_eq (b : Board) (c : Int) :
    hasLegalMove b c = (firstLegalMove b c).isSome := by
  unfold hasLegalMove firstLegalMove
  rw [Bool.eq_iff_iff, List.any_eq_true, List.find?_isSome]

theorem gameNextTurn_eq (s : State) :
    gameNextTurn s = { board := s.board, turn := getOpponentPiece s.turn } := by
  unfold gameNextTurn getOpponentPiece
  split_ifs <;> rfl

theorem getOpponentPiece_ne_self (c : Int) (hc : c = PIECE_WHITE ∨ c = PIECE_BLACK) :
    getOpponentPiece c ≠ c := (getOpponentPiece_ne c hc).1

theorem gameDoCurrentTurn_pass (s : State) (force : Bool) :
    gameDoCurrentTurn s MOVE_PASS MOVE_PASS force =
      some (if hasLegalMove s.board s.turn = true then s
        else { board := s.board, turn := getOpponentPiece s.turn }) := by
  unfold gameDoCurrentTurn
  rw [if_pos (Or.inl rfl), playerCanMove_eq, Option.some_bind]
  cases hasLegalMove s.board s.turn
  · simp [gameNextTurn_eq]
  · simp

theorem gameDoCurrentTurn_place (s : State) (x y : Int) (hx : InRange x y) (force : Bool) :
    gameDoCurrentTurn s x y force =
      (boardPlace s.board x y s.turn).bind fun r =>
        if 0 < r.2 then some { board := r.1, turn := getOpponentPiece s.turn }
        else if force = true then
          (forcedMoveOuter s.turn 9 r.1 0).bind fun b =>
            some { board := b, turn := getOpponentPiece s.turn }
        else some { board := r.1, turn := s.turn } := by
  have hne : ¬ (x = MOVE_PASS ∨ y = MOVE_PASS) := by
    unfold InRange at hx
    unfold MOVE_PASS
    omega
  unfold gameDoCurrentTurn
  rw [if_neg hne]
  simp only [gameNextTurn_eq]

theorem hasLegalMove_iff (b : Board) (c : Int) :
    hasLegalMove b c = true ↔
      ∃ x y, InRange x y ∧ ∃ k, 0 < k ∧ boardCheckMove b x y c false = some (b, k) := by
  unfold hasLegalMove
  rw [List.any_eq_true]
  constructor
  · rintro ⟨cell, hm, hl⟩
    have hr := scanOrder_inRange cell hm
    rw [isLegalMove_eq b c cell hr] at hl
    exact ⟨cell.1, cell.2, hr, _, by simpa using hl, boardCheckMove_false b cell.1 cell.2 c hr⟩
  · rintro ⟨x, y, hr, k, hk, he⟩
    refine ⟨(x, y), mem_scanOrder x y hr, ?_⟩
    rw [isLegalMove_eq b c (x, y) hr]
    rw [boardCheckMove_false b x y c hr] at he
    simp only [Option.some.injEq, Prod.mk.injEq, true_and] at he
    simpa [he] using hk

/-! ## Claims on the opening grid -/

theorem openingBoard_moveScore :
    ∀ cell ∈ scanOrder, moveScore openingBoard cell.1 cell.2 PIECE_WHITE =
      if cell ∈ [(2, 4), (3, 5), (4, 2), (5, 3)] then 1 else 0 := by
  decide!

/-- C5, the claim fails: on the opening grid the cell (2, 3) scores 0 for Light,
so it is not a legal move for Light. -/
theorem opening_light_2_3_not_legal :
    (boardCheckMove openingBoard 2 3 PIECE_WHITE false).map Prod.snd = some 0 := by
  decide!

/-- C5 as amended: on the grid `boardReset` produces, for every in-range cell
`boardCheckMove` for Light without change returns the grid as it was and the
score 1 at (2, 4), (3, 5), (4, 2), (5, 3) and 0 at every other cell. -/
theorem opening_light_legal_moves (b : Board) (x y : Int) (hx : InRange x y) :
    boardCheckMove (boardReset b) x y PIECE_WHITE false =
      some (boardReset b, if (x, y) ∈ [(2, 4), (3, 5), (4, 2), (5, 3)] then 1 else 0) := by
  rw [boardReset_eq_openingBoard, boardCheckMove_false openingBoard x y PIECE_WHITE hx]
  have := openingBoard_moveScore (x, y) (mem_scanOrder x y hx)
  rw [this]

theorem opening_light_legal_moves_witness :
    InRange 2 4 ∧
      boardCheckMove (boardReset fun _ _ => 7) 2 4 PIECE_WHITE false =
        some (boardReset fun _ _ => 7,
          if ((2 : Int), (4 : Int)) ∈ [(2, 4), (3, 5), (4, 2), (5, 3)] then 1 else 0) :=
  ⟨by decide, opening_light_legal_moves (fun _ _ => 7) 2 4 (by decide)⟩

theorem getValidMovesLoop_board (c : Int) :
    ∀ (cells : List (Int × Int)) (b : Board) (acc : List Move),
      (∀ cell ∈ cells, InRange cell.1 cell.2) →
      ∃ l, getValidMovesLoop c cells b acc = some (b, l) := by
  intro cells
  induction cells with
  | nil => intro b acc _; exact ⟨acc, rfl⟩
  | cons cell cells ih =>
    intro b acc h
    have hr := h cell (List.mem_cons_self _ _)
    rw [getValidMovesLoop, boardCheckMove_false b cell.1 cell.2 c hr, Option.some_bind]
    split_ifs
    · exact ih b _ (fun e he => h e (List.mem_cons_of_mem _ he))
    · exact ih b _ (fun e he => h e (List.mem_cons_of_mem _ he))

theorem getValidMoves_opening :
    getValidMoves openingBoard PIECE_WHITE =
      some (openingBoard,
        [{ x := 5, y := 3, score := 1 }, { x := 4, y := 2, score := 1 },
          { x := 3, y := 5, score := 1 }, { x := 2, y := 4, score := 1 }]) := by
  obtain ⟨l, hl⟩ := getValidMovesLoop_board PIECE_WHITE scanOrder openingBoard [] scanOrder_inRange
  have h2 : (getValidMoves openingBoard PIECE_WHITE).map Prod.snd =
      some [{ x := 5, y := 3, score := 1 }, { x := 4, y := 2, score := 1 },
        { x := 3, y := 5, score := 1 }, { x := 2, y := 4, score := 1 }] := by
    decide!
  unfold getValidMoves at h2 ⊢
  rw [hl] at h2 ⊢
  simp only [Option.map_some', Option.some.injEq] at h2
  rw [h2]

/-- C6, the claim fails: with random draw 0 the medium AI answers (5, 3) for
Light on the opening grid, which is none of (2,3), (3,2), (4,5), (5,4). -/
theorem aiMakeMove_medium_opening_draw_0 :
    (aiMakeMove openingBoard AI_MEDIUM PIECE_WHITE MOVE_PASS MOVE_PASS 0).map Prod.snd =
        some (5, 3) ∧
      ((5 : Int), (3 : Int)) ∉ [((2 : Int), (3 : Int)), (3, 2), (4, 5), (5, 4)] := by
  decide!

/-- C6 as amended: on the grid `boardReset` produces, for every random draw,
`aiMakeMove` with difficulty AI_MEDIUM and colour Light returns, leaves the grid
as it was and answers one of (2, 4), (3, 5), (4, 2), (5, 3). -/
theorem aiMakeMove_medium_opening (b : Board) (x0 y0 : Int) (rnd : Nat) :
    ∃ x y, aiMakeMove (boardReset b) AI_MEDIUM PIECE_WHITE x0 y0 rnd =
        some (boardReset b, x, y) ∧
      (x, y) ∈ [((2 : Int), (4 : Int)), (3, 5), (4, 2), (5, 3)] := by
  have key : ∀ k : Int, 0 ≤ k → k < 4 →
      ∃ m, selectTiedLoop 1
        [{ x := 5, y := 3, score := 1 }, { x := 4, y := 2, score := 1 },
          { x := 3, y := 5, score := 1 }, { x := 2, y := 4, score := 1 }] k = some m ∧
        (m.x, m.y) ∈ [((2 : Int), (4 : Int)), (3, 5), (4, 2), (5, 3)] := by
    intro k h0 h4
    have : k = 0 ∨ k = 1 ∨ k = 2 ∨ k = 3 := by omega
    rcases this with rfl | rfl | rfl | rfl
    · exact ⟨{ x := 5, y := 3, score := 1 }, by decide, by decide⟩
    · exact ⟨{ x := 4, y := 2, score := 1 }, by decide, by decide⟩
    · exact ⟨{ x := 3, y := 5, score := 1 }, by decide, by decide⟩
    · exact ⟨{ x := 2, y := 4, score := 1 }, by decide, by decide⟩
  have hfb : findBestLoop
      [{ x := 5, y := 3, score := 1 }, { x := 4, y := 2, score := 1 },
        { x := 3, y := 5, score := 1 }, { x := 2, y := 4, score := 1 }] none 0 =
      (some { x := 5, y := 3, score := 1 }, 4) := by decide
  obtain ⟨m, hm, hmem⟩ := key ((rnd : Int) % 4) (by omega) (by omega)
  refine ⟨m.x, m.y, ?_, hmem⟩
  rw [boardReset_eq_openingBoard]
  unfold aiMakeMove
  rw [getValidMoves_opening, Option.some_bind, if_neg (by decide), if_pos rfl]
  unfold aiMakeMove_Medium
  simp only [hfb, hm, Option.some_bind]

/-! ## Claims on the turn controller -/

/-- C7, the claim fails: on the opening position, where Light has a legal move,
a forced request with the Pass sentinel leaves the state as it was; the turn is
not flipped and no cell is applied. -/
theorem forced_pass_opening_no_transition :
    hasLegalMove openingBoard PIECE_WHITE = true ∧
      gameDoCurrentTurn { board := openingBoard, turn := PIECE_WHITE } MOVE_PASS MOVE_PASS true =
        some { board := openingBoard, turn := PIECE_WHITE } := by
  have h : hasLegalMove openingBoard PIECE_WHITE = true := by decide!
  refine ⟨h, ?_⟩
  rw [gameDoCurrentTurn_pass]
  simp only [h, if_true]

/-- C7 as amended: for every state with turn Light or Dark, a forced request
with in-range coordinates returns a state whose turn is the other colour; a
forced request with the Pass sentinel returns the state as it was when the mover
has a legal move, and the state with the turn flipped and the grid unchanged
when the mover has none. -/
theorem forced_move_transition (s : State)
    (hturn : s.turn = PIECE_WHITE ∨ s.turn = PIECE_BLACK) (x y : Int) :
    getOpponentPiece s.turn ≠ s.turn ∧
      (InRange x y →
        ∃ b, gameDoCurrentTurn s x y true =
          some { board := b, turn := getOpponentPiece s.turn }) ∧
      gameDoCurrentTurn s MOVE_PASS MOVE_PASS true =
        some (if hasLegalMove s.board s.turn = true then s
          else { board := s.board, turn := getOpponentPiece s.turn }) := by
  refine ⟨getOpponentPiece_ne_self _ hturn, ?_, gameDoCurrentTurn_pass s true⟩
  intro hx
  obtain ⟨b2, hp, _, _⟩ := boardPlace_eq s.board x y s.turn hx
  rw [gameDoCurrentTurn_place s x y hx, hp, Option.some_bind]
  by_cases hpos : 0 < moveScore s.board x y s.turn
  · exact ⟨b2, by simp only [hpos, if_true]⟩
  · simp only [hpos, if_false, if_true, forcedMoveOuter_eq]
    cases hf : firstLegalMove b2 s.turn with
    | none => exact ⟨b2, rfl⟩
    | some cell =>
      obtain ⟨hr, _⟩ := firstLegalMove_spec b2 s.turn cell hf
      obtain ⟨b3, hp3, _, _⟩ := boardPlace_eq b2 cell.1 cell.2 s.turn hr
      exact ⟨b3, by simp only [hp3, Option.map_some', Option.some_bind]⟩

theorem forced_move_transition_witness :
    (PIECE_WHITE = PIECE_WHITE ∨ PIECE_WHITE = PIECE_BLACK) ∧
      getOpponentPiece PIECE_WHITE ≠ PIECE_WHITE ∧
      (InRange 0 0 →
        ∃ b, gameDoCurrentTurn { board := openingBoard, turn := PIECE_WHITE } 0 0 true =
          some { board := b, turn := getOpponentPiece PIECE_WHITE }) ∧
      gameDoCurrentTurn { board := openingBoard, turn := PIECE_WHITE } MOVE_PASS MOVE_PASS true =
        some (if hasLegalMove openingBoard PIECE_WHITE = true then
            { board := openingBoard, turn := PIECE_WHITE }
          else { board := openingBoard, turn := getOpponentPiece PIECE_WHITE }) :=
  ⟨Or.inl rfl,
    forced_move_transition { board := openingBoard, turn := PIECE_WHITE } (Or.inl rfl) 0 0⟩

/-- C8: for every state with turn Light or Dark and every in-range (x, y) at
which `boardPlace` returns 0 for the mover, a forced request returns: when some
cell is legal, the grid `boardPlace` leaves at the first legal cell in scan
order (x outer, y inner) and nothing else placed, otherwise the grid unchanged;
in both cases the turn is the other colour. -/
theorem forced_illegal_move (s : State)
    (hturn : s.turn = PIECE_WHITE ∨ s.turn = PIECE_BLACK) (x y : Int) (hx : InRange x y)
    (hill : (boardPlace s.board x y s.turn).map Prod.snd = some 0) :
    getOpponentPiece s.turn ≠ s.turn ∧
      (∀ cell, firstLegalMove s.board s.turn = some cell →
        ∃ b k, boardPlace s.board cell.1 cell.2 s.turn = some (b, k) ∧ 0 < k ∧
          gameDoCurrentTurn s x y true =
            some { board := b, turn := getOpponentPiece s.turn }) ∧
      (firstLegalMove s.board s.turn = none →
        gameDoCurrentTurn s x y true =
          some { board := s.board, turn := getOpponentPiece s.turn }) := by
  obtain ⟨b2, hp, hz, _⟩ := boardPlace_eq s.board x y s.turn hx
  rw [hp] at hill
  simp only [Option.map_some', Option.some.injEq] at hill
  have hb := hz hill
  subst hb
  have hg : gameDoCurrentTurn s x y true =
      (forcedMoveOuter s.turn 9 s.board 0).bind fun b =>
        some { board := b, turn := getOpponentPiece s.turn } := by
    rw [gameDoCurrentTurn_place s x y hx, hp, Option.some_bind, hill]
    simp only [lt_irrefl, if_false, if_true]
  refine ⟨getOpponentPiece_ne_self _ hturn, ?_, ?_⟩
  · intro cell hf
    obtain ⟨hr, hpos⟩ := firstLegalMove_spec s.board s.turn cell hf
    obtain ⟨b3, hp3, _, _⟩ := boardPlace_eq s.board cell.1 cell.2 s.turn hr
    refine ⟨b3, _, hp3, hpos, ?_⟩
    rw [hg, forcedMoveOuter_eq, hf]
    simp only [hp3, Option.map_some', Option.some_bind]
  · intro hf
    rw [hg, forcedMoveOuter_eq, hf]
    rfl

theorem forced_illegal_move_witness :
    (PIECE_WHITE = PIECE_WHITE ∨ PIECE_WHITE = PIECE_BLACK) ∧ InRange 0 0 ∧
      (boardPlace openingBoard 0 0 PIECE_WHITE).map Prod.snd = some 0 ∧
      getOpponentPiece PIECE_WHITE ≠ PIECE_WHITE ∧
      (∀ cell, firstLegalMove openingBoard PIECE_WHITE = some cell →
        ∃ b k, boardPlace openingBoard cell.1 cell.2 PIECE_WHITE = some (b, k) ∧ 0 < k ∧
          gameDoCurrentTurn { board := openingBoard, turn := PIECE_WHITE } 0 0 true =
            some { board := b, turn := getOpponentPiece PIECE_WHITE }) ∧
      (firstLegalMove openingBoard PIECE_WHITE = none →
        gameDoCurrentTurn { board := openingBoard, turn := PIECE_WHITE } 0 0 true =
          some { board := openingBoard, turn := getOpponentPiece PIECE_WHITE }) :=
  ⟨Or.inl rfl, by decide, by decide!,
    forced_illegal_move { board := openingBoard, turn := PIECE_WHITE } (Or.inl rfl) 0 0
      (by decide) (by decide!)⟩

/-- C9: for every state with turn Light or Dark, a voluntary Pass request
returns the state with the turn flipped to the other colour and the grid
unchanged when the mover has no legal move, and the state as it was when the
mover has one; the mover has a legal move exactly when some in-range cell has a
positive `boardCheckMove` score without change. -/
theorem voluntary_pass (s : State) (hturn : s.turn = PIECE_WHITE ∨ s.turn = PIECE_BLACK) :
    getOpponentPiece s.turn ≠ s.turn ∧
      gameDoCurrentTurn s MOVE_PASS MOVE_PASS false =
        some (if hasLegalMove s.board s.turn = true then s
          else { board := s.board, turn := getOpponentPiece s.turn }) ∧
      (hasLegalMove s.board s.turn = true ↔
        ∃ x y, InRange x y ∧ ∃ k, 0 < k ∧
          boardCheckMove s.board x y s.turn false = some (s.board, k)) :=
  ⟨getOpponentPiece_ne_self _ hturn, gameDoCurrentTurn_pass s false,
    hasLegalMove_iff s.board s.turn⟩

theorem voluntary_pass_witness :
    (PIECE_BLACK = PIECE_WHITE ∨ PIECE_BLACK = PIECE_BLACK) ∧
      hasLegalMove cornerBoard PIECE_BLACK = false ∧
      hasLegalMove cornerBoard PIECE_WHITE = true ∧
      gameDoCurrentTurn { board := cornerBoard, turn := PIECE_BLACK } MOVE_PASS MOVE_PASS false =
        some { board := cornerBoard, turn := PIECE_WHITE } := by
  have h1 : hasLegalMove cornerBoard PIECE_BLACK = false := by decide!
  have h2 : hasLegalMove cornerBoard PIECE_WHITE = true := by decide!
  have h := (voluntary_pass { board := cornerBoard, turn := PIECE_BLACK } (Or.inr rfl)).2.1
  simp only [h1] at h
  exact ⟨Or.inr rfl, h1, h2, h⟩

/-- C10: for every state with turn Light or Dark and every in-range (x, y), a
request that is not forced returns: when `boardPlace` for the mover scores above
0, the grid `boardPlace` leaves and the turn flipped to the other colour; when it
scores 0, the state as it was. -/
theorem unforced_placement (s : State)
    (hturn : s.turn = PIECE_WHITE ∨ s.turn = PIECE_BLACK) (x y : Int) (hx : InRange x y) :
    getOpponentPiece s.turn ≠ s.turn ∧
      ∃ b k, boardPlace s.board x y s.turn = some (b, k) ∧ 0 ≤ k ∧
        (0 < k → gameDoCurrentTurn s x y false =
          some { board := b, turn := getOpponentPiece s.turn }) ∧
        (k = 0 → gameDoCurrentTurn s x y false = some s) := by
  obtain ⟨b2, hp, hz, _⟩ := boardPlace_eq s.board x y s.turn hx
  refine ⟨getOpponentPiece_ne_self _ hturn, b2, _, hp, moveScore_nonneg _ _ _ _ hx, ?_, ?_⟩
  · intro hpos
    rw [gameDoCurrentTurn_place s x y hx, hp, Option.some_bind]
    simp only [hpos, if_true]
  · intro h0
    have hb := hz h0
    subst hb
    rw [gameDoCurrentTurn_place s x y hx, hp, Option.some_bind, h0]
    simp only [lt_irrefl, if_false, Bool.false_eq_true]

theorem unforced_placement_witness :
    (PIECE_WHITE = PIECE_WHITE ∨ PIECE_WHITE = PIECE_BLACK) ∧ InRange 2 4 ∧
      getOpponentPiece PIECE_WHITE ≠ PIECE_WHITE ∧
      ∃ b k, boardPlace openingBoard 2 4 PIECE_WHITE = some (b, k) ∧ 0 ≤ k ∧
        (0 < k → gameDoCurrentTurn { board := openingBoard, turn := PIECE_WHITE } 2 4 false =
          some { board := b, turn := getOpponentPiece PIECE_WHITE }) ∧
        (k = 0 → gameDoCurrentTurn { board := openingBoard, turn := PIECE_WHITE } 2 4 false =
          some { board := openingBoard, turn := PIECE_WHITE }) :=
  ⟨Or.inl rfl, by decide,
    unforced_placement { board := openingBoard, turn := PIECE_WHITE } (Or.inl rfl) 2 4
      (by decide)⟩

/-! ## The enumeration of the legal moves -/

theorem flipScore_eq (b : Board) (c : Int) (cell : Int × Int) (h : InRange cell.1 cell.2) :
    flipScore b c cell = moveScore b cell.1 cell.2 c := by
  unfold flipScore
  rw [boardCheckMove_false b cell.1 cell.2 c h]

theorem isLegalMove_iff_flipScore (b : Board) (c : Int) (cell : Int × Int) :
    isLegalMove b c cell = true ↔ 0 < flipScore b c cell := by
  unfold isLegalMove flipScore
  cases boardCheckMove b cell.1 cell.2 c false <;> simp

theorem getValidMovesLoop_eq (c : Int) :
    ∀ (cells : List (Int × Int)) (b : Board) (acc : List Move),
      (∀ cell ∈ cells, InRange cell.1 cell.2) →
      getValidMovesLoop c cells b acc =
        some (b, ((cells.filter (isLegalMove b c)).map (moveAt b c)).reverse ++ acc) := by
  intro cells
  induction cells with
  | nil => intro b acc _; rfl
  | cons cell cells ih =>
    intro b acc h
    have hr := h cell (List.mem_cons_self _ _)
    have hrest := fun e he => h e (List.mem_cons_of_mem _ he)
    rw [getValidMovesLoop, boardCheckMove_false b cell.1 cell.2 c hr, Option.some_bind,
      List.filter_cons, isLegalMove_eq b c cell hr]
    by_cases hpos : 0 < moveScore b cell.1 cell.2 c
    · simp only [hpos, if_true, decide_True, gt_iff_lt]
      rw [ih b _ hrest]
      simp [insertMove, moveAt, flipScore_eq b c cell hr]
    · simp only [hpos, if_false, decide_False, gt_iff_lt]
      rw [ih b _ hrest]
      simp

theorem getValidMoves_eq (b : Board) (c : Int) :
    getValidMoves b c = some (b, refValidMoves b c) := by
  unfold getValidMoves refValidMoves
  rw [getValidMovesLoop_eq c scanOrder b [] scanOrder_inRange, List.append_nil]

theorem scanOrder_nodup : scanOrder.Nodup := by decide

theorem mem_refValidMoves (b : Board) (c : Int) (m : Move) :
    m ∈ refValidMoves b c ↔
      InRange m.x m.y ∧ 0 < flipScore b c (m.x, m.y) ∧ m.score = flipScore b c (m.x, m.y) := by
  unfold refValidMoves
  rw [List.mem_reverse, List.mem_map]
  constructor
  · rintro ⟨cell, hc, rfl⟩
    rw [List.mem_filter] at hc
    exact ⟨scanOrder_inRange cell hc.1, (isLegalMove_iff_flipScore b c cell).mp hc.2, rfl⟩
  · rintro ⟨hr, hpos, hs⟩
    refine ⟨(m.x, m.y), List.mem_filter.mpr ⟨mem_scanOrder _ _ hr, ?_⟩, ?_⟩
    · exact (isLegalMove_iff_flipScore b c _).mpr hpos
    · cases m
      simp only [moveAt] at hs ⊢
      rw [hs]

theorem refValidMoves_eq_nil (b : Board) (c : Int) :
    refValidMoves b c = [] ↔ hasLegalMove b c = false := by
  unfold refValidMoves hasLegalMove
  rw [List.reverse_eq_nil_iff, List.map_eq_nil_iff, List.filter_eq_nil_iff, List.any_eq_false]

/-- C18: for every grid and colour, `getValidMoves` returns, leaves the grid as
it was, and gives exactly the legal cells (positive `boardCheckMove` score
without change), each once, paired with its flip score, in the reverse of the
x-outer, y-inner scan order. -/
theorem getValidMoves_eq_refValidMoves (g : Board) (c : Int) :
    getValidMoves g c =
        some (g, ((scanOrder.filter (isLegalMove g c)).map (moveAt g c)).reverse) ∧
      scanOrder.Nodup ∧
      (∀ x y : Int, (x, y) ∈ scanOrder ↔ InRange x y) ∧
      (∀ cell ∈ scanOrder, isLegalMove g c cell = true ↔
        ∃ k, 0 < k ∧ boardCheckMove g cell.1 cell.2 c false = some (g, k)) ∧
      (∀ cell ∈ scanOrder, boardCheckMove g cell.1 cell.2 c false =
        some (g, (moveAt g c cell).score)) := by
  refine ⟨getValidMoves_eq g c, scanOrder_nodup, ?_, ?_, ?_⟩
  · intro x y
    exact ⟨fun h => scanOrder_inRange (x, y) h, mem_scanOrder x y⟩
  · intro cell hc
    have hr := scanOrder_inRange cell hc
    rw [isLegalMove_eq g c cell hr, boardCheckMove_false g cell.1 cell.2 c hr]
    simp
  · intro cell hc
    have hr := scanOrder_inRange cell hc
    rw [boardCheckMove_false g cell.1 cell.2 c hr]
    simp only [moveAt, flipScore_eq g c cell hr]

/-! ## Claims on the game state -/

theorem openingBoard_cells :
    ∀ i j : Fin 8, openingBoard i j =
      if (i = 3 ∧ j = 3) ∨ (i = 4 ∧ j = 4) then PIECE_WHITE
      else if (i = 3 ∧ j = 4) ∨ (i = 4 ∧ j = 3) then PIECE_BLACK
      else PIECE_EMPTY := by
  decide!

/-- C17: after `gameReset`, whatever the state before, the turn is Light and the
board has Light at (3,3) and (4,4), Dark at (3,4) and (4,3), and Empty in every
other cell. -/
theorem gameReset_position (s : State) :
    (gameReset s).turn = PIECE_WHITE ∧
      ∀ i j : Fin 8, (gameReset s).board i j =
        if (i = 3 ∧ j = 3) ∨ (i = 4 ∧ j = 4) then PIECE_WHITE
        else if (i = 3 ∧ j = 4) ∨ (i = 4 ∧ j = 3) then PIECE_BLACK
        else PIECE_EMPTY := by
  refine ⟨rfl, ?_⟩
  show ∀ i j : Fin 8, boardReset s.board i j = _
  rw [boardReset_eq_openingBoard]
  exact openingBoard_cells

theorem forcedMoveOuter_total (turn : Int) (b : Board) :
    ∃ b2, forcedMoveOuter turn 9 b 0 = some b2 := by
  rw [forcedMoveOuter_eq]
  cases hf : firstLegalMove b turn with
  | none => exact ⟨b, rfl⟩
  | some cell =>
    obtain ⟨hr, _⟩ := firstLegalMove_spec b turn cell hf
    obtain ⟨b3, hp3, _, _⟩ := boardPlace_eq b cell.1 cell.2 turn hr
    exact ⟨b3, by simp only [hp3, Option.map_some']⟩

theorem gameDoCurrentTurn_turn (s : State)
    (hturn : s.turn = PIECE_WHITE ∨ s.turn = PIECE_BLACK) (x y : Int) (force : Bool)
    (hxy : InRange x y ∨ (x = MOVE_PASS ∧ y = MOVE_PASS)) :
    ∃ s2, gameDoCurrentTurn s x y force = some s2 ∧
      (s2.turn = PIECE_WHITE ∨ s2.turn = PIECE_BLACK) := by
  have hopp : getOpponentPiece s.turn = PIECE_WHITE ∨ getOpponentPiece s.turn = PIECE_BLACK := by
    rcases hturn with h | h <;> rw [h] <;> decide
  rcases hxy with hx | ⟨rfl, rfl⟩
  · obtain ⟨b2, hp, _, _⟩ := boardPlace_eq s.board x y s.turn hx
    rw [gameDoCurrentTurn_place s x y hx, hp, Option.some_bind]
    by_cases hpos : 0 < moveScore s.board x y s.turn
    · refine ⟨{ board := b2, turn := getOpponentPiece s.turn }, ?_, hopp⟩
      simp only [hpos, if_true]
    · cases force
      · refine ⟨{ board := b2, turn := s.turn }, ?_, hturn⟩
        simp only [hpos, if_false, Bool.false_eq_true]
      · obtain ⟨b3, h3⟩ := forcedMoveOuter_total s.turn b2
        refine ⟨{ board := b3, turn := getOpponentPiece s.turn }, ?_, hopp⟩
        simp only [hpos, if_false, if_true, h3, Option.some_bind]
  · rw [gameDoCurrentTurn_pass]
    by_cases hl : hasLegalMove s.board s.turn = true
    · refine ⟨s, ?_, hturn⟩
      rw [if_pos hl]
    · refine ⟨{ board := s.board, turn := getOpponentPiece s.turn }, ?_, hopp⟩
      rw [if_neg hl]

theorem runMoves_turn :
    ∀ (moves : List (Int × Int × Bool)) (s : State),
      (s.turn = PIECE_WHITE ∨ s.turn = PIECE_BLACK) →
      (∀ m ∈ moves, InRange m.1 m.2.1 ∨ (m.1 = MOVE_PASS ∧ m.2.1 = MOVE_PASS)) →
      ∃ s2, runMoves s moves = some s2 ∧ (s2.turn = PIECE_WHITE ∨ s2.turn = PIECE_BLACK) := by
  intro moves
  induction moves with
  | nil => intro s hs _; exact ⟨s, rfl, hs⟩
  | cons m ms ih =>
    intro s hs hm
    obtain ⟨s1, h1, ht1⟩ := gameDoCurrentTurn_turn s hs m.1 m.2.1 m.2.2
      (hm m (List.mem_cons_self _ _))
    obtain ⟨s2, h2, ht2⟩ := ih s1 ht1 (fun e he => hm e (List.mem_cons_of_mem _ he))
    exact ⟨s2, by rw [runMoves, h1, Option.some_bind, h2], ht2⟩

/-- C20: every sequence of `gameDoCurrentTurn` calls with in-range or Pass
coordinates, forced or not, run from the state `gameReset` produces, returns a
state whose turn is Light or Dark; and `gameNextTurn` maps Light to Dark and
Dark to Light. -/
theorem reachable_turn_valid (s0 : State) (moves : List (Int × Int × Bool))
    (hm : ∀ m ∈ moves, InRange m.1 m.2.1 ∨ (m.1 = MOVE_PASS ∧ m.2.1 = MOVE_PASS)) :
    (∃ s, runMoves (gameReset s0) moves = some s ∧
        (s.turn = PIECE_WHITE ∨ s.turn = PIECE_BLACK) ∧ s.turn ≠ PIECE_EMPTY) ∧
      (∀ b : Board, (gameNextTurn { board := b, turn := PIECE_WHITE }).turn = PIECE_BLACK) ∧
      (∀ b : Board, (gameNextTurn { board := b, turn := PIECE_BLACK }).turn = PIECE_WHITE) := by
  obtain ⟨s, h1, h2⟩ := runMoves_turn moves (gameReset s0) (Or.inl rfl) hm
  refine ⟨⟨s, h1, h2, ?_⟩, fun _ => rfl, fun _ => rfl⟩
  rcases h2 with h | h <;> rw [h] <;> decide

theorem reachable_turn_valid_witness :
    (∀ m ∈ [((2 : Int), (4 : Int), false), (MOVE_PASS, MOVE_PASS, true), (0, 0, true)],
        InRange m.1 m.2.1 ∨ (m.1 = MOVE_PASS ∧ m.2.1 = MOVE_PASS)) ∧
      (∃ s, runMoves (gameReset { board := cornerBoard, turn := PIECE_EMPTY })
          [((2 : Int), (4 : Int), false), (MOVE_PASS, MOVE_PASS, true), (0, 0, true)] = some s ∧
        (s.turn = PIECE_WHITE ∨ s.turn = PIECE_BLACK) ∧ s.turn ≠ PIECE_EMPTY) ∧
      (∀ b : Board, (gameNextTurn { board := b, turn := PIECE_WHITE }).turn = PIECE_BLACK) ∧
      (∀ b : Board, (gameNextTurn { board := b, turn := PIECE_BLACK }).turn = PIECE_WHITE) :=
  ⟨by decide,
    reachable_turn_valid { board := cornerBoard, turn := PIECE_EMPTY }
      [((2 : Int), (4 : Int), false), (MOVE_PASS, MOVE_PASS, true), (0, 0, true)] (by decide)⟩

/-! ## Maximal scores and the selection walks -/

theorem listMax_cons (a : Int) (m : Move) (l : List Move) :
    listMax a (m :: l) = listMax (max a m.score) l := rfl

theorem listMax_ge_init : ∀ (l : List Move) (a : Int), a ≤ listMax a l := by
  intro l
  induction l with
  | nil => intro a; exact le_refl _
  | cons m l ih =>
    intro a
    rw [listMax_cons]
    exact le_trans (le_max_left _ _) (ih _)

theorem listMax_ge_mem : ∀ (l : List Move) (a : Int) (m : Move), m ∈ l → m.score ≤ listMax a l := by
  intro l
  induction l with
  | nil => intro a m h; simp at h
  | cons x l ih =>
    intro a m h
    rw [listMax_cons]
    rcases List.mem_cons.mp h with rfl | h
    · exact le_trans (le_max_right _ _) (listMax_ge_init l _)
    · exact ih _ m h

theorem listMax_eq_or_mem : ∀ (l : List Move) (a : Int),
    listMax a l = a ∨ ∃ m ∈ l, m.score = listMax a l := by
  intro l
  induction l with
  | nil => intro a; exact Or.inl rfl
  | cons x l ih =>
    intro a
    rw [listMax_cons]
    rcases ih (max a x.score) with h | ⟨m, hm, hs⟩
    · rcases max_cases a x.score with ⟨e, _⟩ | ⟨e, _⟩
      · exact Or.inl (by rw [h, e])
      · exact Or.inr ⟨x, List.mem_cons_self _ _, by rw [h, e]⟩
    · exact Or.inr ⟨m, List.mem_cons_of_mem _ hm, hs⟩

theorem maxScore_ge_mem (l : List Move) (m : Move) (h : m ∈ l) : m.score ≤ maxScore l := by
  cases l with
  | nil => simp at h
  | cons x l =>
    rcases List.mem_cons.mp h with rfl | h
    · exact listMax_ge_init l _
    · exact listMax_ge_mem l _ m h

theorem maxScore_attained (l : List Move) (h : l ≠ []) : ∃ m ∈ l, m.score = maxScore l := by
  cases l with
  | nil => exact absurd rfl h
  | cons x l =>
    rcases listMax_eq_or_mem l x.score with e | ⟨m, hm, hs⟩
    · exact ⟨x, List.mem_cons_self _ _, e.symm⟩
    · exact ⟨m, List.mem_cons_of_mem _ hm, hs⟩

theorem countP_cons_cast (p : Move → Bool) (m : Move) (rest : List Move) :
    (((m :: rest).countP p : Nat) : Int) =
      ((rest.countP p : Nat) : Int) + (if p m = true then 1 else 0) := by
  rw [List.countP_cons]
  split_ifs <;> simp

theorem findBestLoop_some : ∀ (l : List Move) (b : Move) (k : Int),
    ∃ b2, findBestLoop l (some b) k =
        (some b2, (if listMax b.score l = b.score then k else 0) +
          ((l.countP fun m => decide (m.score = listMax b.score l) : Nat) : Int)) ∧
      b2.score = listMax b.score l := by
  intro l
  induction l with
  | nil =>
    intro b k
    exact ⟨b, by simp [findBestLoop, listMax], rfl⟩
  | cons m rest ih =>
    intro b k
    have hge := listMax_ge_init rest (max b.score m.score)
    rw [listMax_cons, countP_cons_cast]
    simp only [findBestLoop, decide_eq_true_eq]
    by_cases h1 : m.score > b.score
    · have e : max b.score m.score = m.score := max_eq_right (le_of_lt h1)
      obtain ⟨b2, hb, hs⟩ := ih m 1
      rw [e] at hge ⊢
      refine ⟨b2, ?_, hs⟩
      rw [if_pos h1, hb]
      refine Prod.ext rfl ?_
      dsimp only
      split_ifs <;> omega
    · have e : max b.score m.score = b.score := max_eq_left (by omega)
      rw [e] at hge ⊢
      rw [if_neg h1]
      by_cases h2 : m.score = b.score
      · obtain ⟨b2, hb, hs⟩ := ih b (k + 1)
        refine ⟨b2, ?_, hs⟩
        rw [if_pos h2, hb]
        refine Prod.ext rfl ?_
        dsimp only
        split_ifs <;> omega
      · obtain ⟨b2, hb, hs⟩ := ih b k
        refine ⟨b2, ?_, hs⟩
        rw [if_neg h2, hb]
        refine Prod.ext rfl ?_
        dsimp only
        split_ifs <;> omega

theorem tiedMoves_length_cons (m : Move) (rest : List Move) :
    (((tiedMoves (m :: rest)).length : Nat) : Int) =
      (if listMax m.score rest = m.score then 1 else 0) +
        ((rest.countP fun x => decide (x.score = listMax m.score rest) : Nat) : Int) := by
  unfold tiedMoves
  rw [← List.countP_eq_length_filter, countP_cons_cast]
  simp only [maxScore, decide_eq_true_eq]
  split_ifs <;> omega

theorem findBestLoop_none (l : List Move) (h : l ≠ []) :
    ∃ b, findBestLoop l none 0 = (some b, (((tiedMoves l).length : Nat) : Int)) ∧
      b.score = maxScore l := by
  cases l with
  | nil => exact absurd rfl h
  | cons m rest =>
    obtain ⟨b2, hb, hs⟩ := findBestLoop_some rest m 1
    refine ⟨b2, ?_, hs⟩
    rw [tiedMoves_length_cons]
    simp only [findBestLoop]
    exact hb

theorem tiedMoves_pos (l : List Move) (h : l ≠ []) : 0 < (tiedMoves l).length := by
  obtain ⟨m, hm, hs⟩ := maxScore_attained l h
  apply List.length_pos_of_mem (a := m)
  unfold tiedMoves
  rw [List.mem_filter]
  exact ⟨hm, by simpa using hs⟩

theorem selectTiedLoop_eq (best : Int) : ∀ (l : List Move) (k : Int), 0 ≤ k →
    k < (((l.filter fun m => decide (m.score = best)).length : Nat) : Int) →
    selectTiedLoop best l k = (l.filter fun m => decide (m.score = best))[k.toNat]? := by
  intro l
  induction l with
  | nil => intro k h0 h1; simp at h1; omega
  | cons m rest ih =>
    intro k h0 h1
    rw [selectTiedLoop, if_pos h0]
    by_cases hm : m.score = best
    · rw [List.filter_cons_of_pos (by simpa using hm)] at h1 ⊢
      simp only [hm, if_true]
      by_cases hk : k - 1 ≥ 0
      · rw [if_pos hk, ih (k - 1) hk (by simp at h1; omega)]
        have : k.toNat = (k - 1).toNat + 1 := by omega
        rw [this, List.getElem?_cons_succ]
      · rw [if_neg hk]
        have : k.toNat = 0 := by omega
        rw [this, List.getElem?_cons_zero]
    · rw [List.filter_cons_of_neg (by simpa using hm)] at h1 ⊢
      simp only [hm, if_false]
      rw [if_pos h0, ih k h0 h1]

theorem advanceMove_eq : ∀ (l : List Move) (i index : Int), i ≤ index →
    index - i < ((l.length : Nat) : Int) →
    advanceMove l i index = l[(index - i).toNat]? := by
  intro l
  induction l with
  | nil => intro i index h0 h1; simp at h1; omega
  | cons m rest ih =>
    intro i index h0 h1
    rw [advanceMove]
    by_cases hlt : i < index
    · rw [if_pos hlt, ih (i + 1) index (by omega) (by simp at h1; omega)]
      have : (index - i).toNat = (index - (i + 1)).toNat + 1 := by omega
      rw [this, List.getElem?_cons_succ]
    · rw [if_neg hlt]
      have : (index - i).toNat = 0 := by omega
      rw [this, List.getElem?_cons_zero]

theorem natCast_mod_toNat (r t : Nat) : (((r : Int) % (t : Int))).toNat = r % t := by
  have : ((r : Int) % (t : Int)) = ((r % t : Nat) : Int) := by norm_cast
  rw [this, Int.toNat_ofNat]

theorem mod_bounds (r t : Nat) (ht : 0 < t) :
    0 ≤ (r : Int) % (t : Int) ∧ (r : Int) % (t : Int) < (t : Int) :=
  ⟨Int.emod_nonneg _ (by omega), Int.emod_lt_of_pos _ (by omega)⟩

theorem aiMakeMove_Easy_eq (l : List Move) (rnd : Nat) (h : l ≠ []) :
    ∃ m, l[rnd % l.length]? = some m ∧ aiMakeMove_Easy l rnd = some (m.x, m.y) := by
  have hpos : 0 < l.length := List.length_pos.mpr h
  obtain ⟨h0, h1⟩ := mod_bounds rnd l.length hpos
  have hlt : rnd % l.length < l.length := Nat.mod_lt _ hpos
  refine ⟨l[rnd % l.length], List.getElem?_eq_getElem hlt, ?_⟩
  unfold aiMakeMove_Easy
  simp only
  rw [if_pos (by omega), advanceMove_eq l 0 _ h0 (by omega), sub_zero, natCast_mod_toNat,
    List.getElem?_eq_getElem hlt, Option.some_bind]

theorem aiMakeMove_Medium_eq (l : List Move) (rnd : Nat) (h : l ≠ []) :
    ∃ m, (tiedMoves l)[rnd % (tiedMoves l).length]? = some m ∧
      aiMakeMove_Medium l rnd = some (m.x, m.y) := by
  have hpos := tiedMoves_pos l h
  obtain ⟨h0, h1⟩ := mod_bounds rnd (tiedMoves l).length hpos
  have hlt : rnd % (tiedMoves l).length < (tiedMoves l).length := Nat.mod_lt _ hpos
  obtain ⟨b, hb, hs⟩ := findBestLoop_none l h
  refine ⟨(tiedMoves l)[rnd % (tiedMoves l).length], List.getElem?_eq_getElem hlt, ?_⟩
  unfold aiMakeMove_Medium
  rw [hb]
  simp only
  rw [hs, selectTiedLoop_eq (maxScore l) l _ h0 h1, natCast_mod_toNat]
  show ((tiedMoves l)[rnd % (tiedMoves l).length]?).bind _ = _
  rw [List.getElem?_eq_getElem hlt, Option.some_bind]

theorem aiMakeMove_Medium_nil (rnd : Nat) :
    aiMakeMove_Medium [] rnd = some (MOVE_PASS, MOVE_PASS) := rfl

theorem aiMakeMove_Easy_nil (rnd : Nat) :
    aiMakeMove_Easy [] rnd = some (MOVE_PASS, MOVE_PASS) := rfl

/-! ## The one-ply differential tier -/

theorem boardPlace_after (g : Board) (x y c : Int) (hx : InRange x y) :
    ∃ k, boardPlace g x y c = some (boardAfterPlace g x y c, k) := by
  obtain ⟨b2, hp, _, _⟩ := boardPlace_eq g x y c hx
  unfold boardAfterPlace
  rw [hp]
  exact ⟨_, rfl⟩

theorem highestLoop_some : ∀ (l : List Move) (b : Move),
    ∃ b2, highestLoop l (some b) = some b2 ∧ b2.score = listMax b.score l := by
  intro l
  induction l with
  | nil => intro b; exact ⟨b, rfl, rfl⟩
  | cons m rest ih =>
    intro b
    rw [listMax_cons]
    simp only [highestLoop]
    by_cases h1 : m.score > b.score
    · rw [if_pos h1, max_eq_right (le_of_lt h1)]
      exact ih m
    · rw [if_neg h1, max_eq_left (by omega)]
      exact ih b

theorem getHighestScoringMove_eq (t : Board) (c : Int) :
    getHighestScoringMove t c = some (t, maxScore (refValidMoves t c)) := by
  unfold getHighestScoringMove
  rw [getValidMoves_eq, Option.some_bind]
  cases refValidMoves t c with
  | nil => rfl
  | cons m rest =>
    obtain ⟨b2, hb, hs⟩ := highestLoop_some rest m
    simp only [highestLoop, hb, hs, maxScore]

theorem findBestLoop_cons (m : Move) (rest : List Move) (best : Option Move) (count : Int) :
    findBestLoop (m :: rest) best count =
      findBestLoop rest
        (match best with
          | none => (some m, 1)
          | some b =>
            if m.score > b.score then (some m, 1)
            else if m.score = b.score then (best, count + 1)
            else (best, count)).1
        (match best with
          | none => (some m, 1)
          | some b =>
            if m.score > b.score then (some m, 1)
            else if m.score = b.score then (best, count + 1)
            else (best, count)).2 := by
  cases best with
  | none => rfl
  | some b =>
    simp only [findBestLoop]
    split_ifs <;> rfl

theorem hardLoop_eq (g : Board) (c : Int) :
    ∀ (l : List Move) (best : Option Move) (count : Int), (∀ m ∈ l, InRange m.x m.y) →
      hardLoop g c l best count =
        some (l.map (differentialMove g c), findBestLoop (l.map (differentialMove g c)) best count) := by
  intro l
  induction l with
  | nil => intro best count _; rfl
  | cons m rest ih =>
    intro best count h
    obtain ⟨k, hp⟩ := boardPlace_after g m.x m.y c (h m (List.mem_cons_self _ _))
    rw [hardLoop, boardCopy_eq, hp, Option.some_bind, getHighestScoringMove_eq, Option.some_bind]
    simp only []
    rw [ih _ _ (fun e he => h e (List.mem_cons_of_mem _ he)), Option.some_bind, List.map_cons,
      findBestLoop_cons]
    rfl

theorem refValidMoves_inRange (g : Board) (c : Int) : ∀ m ∈ refValidMoves g c, InRange m.x m.y :=
  fun m hm => ((mem_refValidMoves g c m).mp hm).1

theorem aiMakeMove_Hard_eq (g : Board) (c : Int) (rnd : Nat) (h : refValidMoves g c ≠ []) :
    ∃ m, (tiedMoves (refHardMoves g c))[rnd % (tiedMoves (refHardMoves g c)).length]? = some m ∧
      aiMakeMove_Hard g (refValidMoves g c) c rnd = some (m.x, m.y) := by
  have hne : refHardMoves g c ≠ [] := by
    unfold refHardMoves
    simpa using h
  have hpos := tiedMoves_pos _ hne
  obtain ⟨h0, h1⟩ := mod_bounds rnd (tiedMoves (refHardMoves g c)).length hpos
  have hlt := Nat.mod_lt rnd hpos
  obtain ⟨b, hb, hs⟩ := findBestLoop_none _ hne
  refine ⟨(tiedMoves (refHardMoves g c))[rnd % (tiedMoves (refHardMoves g c)).length],
    List.getElem?_eq_getElem hlt, ?_⟩
  unfold aiMakeMove_Hard
  rw [hardLoop_eq g c _ none 0 (refValidMoves_inRange g c), Option.some_bind]
  show (match (findBestLoop (refHardMoves g c) none 0).1 with
    | some best =>
      (selectTiedLoop best.score (refHardMoves g c)
        ((rnd : Int) % (findBestLoop (refHardMoves g c) none 0).2)).bind
          fun move => some (move.x, move.y)
    | none => some (MOVE_PASS, MOVE_PASS)) = _
  rw [hb]
  simp only
  rw [hs, selectTiedLoop_eq (maxScore (refHardMoves g c)) _ _ h0 h1, natCast_mod_toNat]
  show ((tiedMoves (refHardMoves g c))[rnd % (tiedMoves (refHardMoves g c)).length]?).bind _ = _
  rw [List.getElem?_eq_getElem hlt, Option.some_bind]

theorem aiMakeMove_Hard_nil (g : Board) (c : Int) (rnd : Nat) :
    aiMakeMove_Hard g [] c rnd = some (MOVE_PASS, MOVE_PASS) := rfl

/-! ## The search tier -/

theorem pickBest_spec : ∀ (l : List Move) (b : Move), b.x ≠ MOVE_PASS →
    (∀ m ∈ l, m.x ≠ MOVE_PASS) →
    (listMax b.score l = b.score → pickBest l b = b) ∧
      (listMax b.score l ≠ b.score →
        l.find? (fun m => decide (m.score = listMax b.score l)) = some (pickBest l b)) := by
  intro l
  induction l with
  | nil => intro b _ _; exact ⟨fun _ => rfl, fun h => absurd rfl h⟩
  | cons m rest ih =>
    intro b hb hl
    have hge := listMax_ge_init rest (max b.score m.score)
    have hrest : ∀ e ∈ rest, e.x ≠ MOVE_PASS := fun e he => hl e (List.mem_cons_of_mem _ he)
    rw [listMax_cons, pickBest]
    by_cases h1 : m.score > b.score
    · have e : max b.score m.score = m.score := max_eq_right (le_of_lt h1)
      rw [e] at hge ⊢
      rw [if_pos (Or.inr h1)]
      have hm : ({ x := m.x, y := m.y, score := m.score } : Move) = m := rfl
      rw [hm]
      obtain ⟨i1, i2⟩ := ih m (hl m (List.mem_cons_self _ _)) hrest
      refine ⟨fun h => by omega, fun _ => ?_⟩
      by_cases h3 : m.score = listMax m.score rest
      · rw [List.find?_cons_of_pos _ (by simpa using h3), i1 h3.symm]
      · rw [List.find?_cons_of_neg _ (by simpa using h3)]
        exact i2 (fun e => h3 e.symm)
    · have e : max b.score m.score = b.score := max_eq_left (by omega)
      rw [e] at hge ⊢
      rw [if_neg (by rintro (h | h); exact hb h; exact h1 h)]
      obtain ⟨i1, i2⟩ := ih b hb hrest
      refine ⟨i1, fun hne => ?_⟩
      have h3 : ¬ m.score = listMax b.score rest := by omega
      rw [List.find?_cons_of_neg _ (by simpa using h3)]
      exact i2 hne

theorem pickBest_pass (l : List Move) (hl : ∀ m ∈ l, m.x ≠ MOVE_PASS) :
    pickBest l { x := MOVE_PASS, y := MOVE_PASS, score := 0 } =
      match l.find? fun m => decide (m.score = maxScore l) with
      | some m => m
      | none => { x := MOVE_PASS, y := MOVE_PASS, score := 0 } := by
  cases l with
  | nil => rfl
  | cons m rest =>
    have hm : ({ x := m.x, y := m.y, score := m.score } : Move) = m := rfl
    rw [pickBest, if_pos (Or.inl rfl), hm]
    simp only [maxScore]
    obtain ⟨i1, i2⟩ := pickBest_spec rest m (hl m (List.mem_cons_self _ _))
      (fun e he => hl e (List.mem_cons_of_mem _ he))
    by_cases h3 : m.score = listMax m.score rest
    · rw [List.find?_cons_of_pos _ (by simpa using h3), i1 h3.symm]
    · rw [List.find?_cons_of_neg _ (by simpa using h3), i2 (fun e => h3 e.symm)]

theorem bestMoveLoop_eq (search : Board → Option (Board × Move)) (f : Board → Move)
    (hs : ∀ t, search t = some (t, f t)) (g : Board) (c : Int) :
    ∀ (l : List Move) (best : Move), (∀ m ∈ l, InRange m.x m.y) →
      bestMoveLoop search g c l best =
        some (pickBest
          (l.map fun m => { m with score := m.score - (f (boardAfterPlace g m.x m.y c)).score })
          best) := by
  intro l
  induction l with
  | nil => intro best _; rfl
  | cons m rest ih =>
    intro best h
    obtain ⟨k, hp⟩ := boardPlace_after g m.x m.y c (h m (List.mem_cons_self _ _))
    have hrest := fun e he => h e (List.mem_cons_of_mem _ he)
    rw [bestMoveLoop, boardCopy_eq, hp, Option.some_bind, hs, Option.some_bind, List.map_cons,
      pickBest]
    simp only []
    split_ifs
    · exact ih _ hrest
    · exact ih _ hrest

theorem refBestMove_score : ∀ (n : Nat) (g : Board) (c : Int),
    (refBestMove n g c).score = refValue n g c := by
  intro n
  cases n with
  | zero => intro g c; rfl
  | succ n =>
    intro g c
    have hv : refValue (n + 1) g c = maxScore (refSearchMoves n g c) := rfl
    rw [hv, refBestMove]
    split
    · rename_i m hf
      simpa using List.find?_some hf
    · rename_i hf
      rw [List.find?_eq_none] at hf
      by_cases hne : refSearchMoves n g c = []
      · rw [hne]; rfl
      · obtain ⟨m, hm, hms⟩ := maxScore_attained _ hne
        exact absurd (by simpa using hms) (hf m hm)

theorem refSearchMoves_x (n : Nat) (g : Board) (c : Int) :
    ∀ m ∈ refSearchMoves n g c, ∃ m0 ∈ refValidMoves g c, m.x = m0.x ∧ m.y = m0.y := by
  intro m hm
  unfold refSearchMoves at hm
  rw [List.mem_map] at hm
  obtain ⟨m0, h0, rfl⟩ := hm
  exact ⟨m0, h0, rfl, rfl⟩

theorem inRange_ne_pass (x y : Int) (h : InRange x y) : x ≠ MOVE_PASS := by
  unfold InRange at h
  unfold MOVE_PASS
  omega

theorem getBestMoveFuel_eq : ∀ (n : Nat) (g : Board) (c d : Int) (fuel : Nat),
    (6 - d).toNat = n → n + 1 ≤ fuel →
    getBestMoveFuel fuel g c d = some (g, refBestMove n g c) := by
  intro n
  induction n with
  | zero =>
    intro g c d fuel hn hf
    obtain ⟨f, rfl⟩ : ∃ f, fuel = f + 1 := ⟨fuel - 1, by omega⟩
    have hd : d > MAX_DEPTH := by unfold MAX_DEPTH; omega
    rw [getBestMoveFuel, if_pos hd]
    rfl
  | succ n ih =>
    intro g c d fuel hn hf
    obtain ⟨f, rfl⟩ : ∃ f, fuel = f + 1 := ⟨fuel - 1, by omega⟩
    have hd : ¬ d > MAX_DEPTH := by unfold MAX_DEPTH; omega
    have hs : ∀ t, getBestMoveFuel f t (getOpponentPiece c) (d + 1) =
        some (t, refBestMove n t (getOpponentPiece c)) :=
      fun t => ih t (getOpponentPiece c) (d + 1) f (by omega) (by omega)
    rw [getBestMoveFuel, if_neg hd, getValidMoves_eq, Option.some_bind,
      bestMoveLoop_eq _ (fun t => refBestMove n t (getOpponentPiece c)) hs g c _ _
        (refValidMoves_inRange g c), Option.some_bind]
    simp only [refBestMove_score]
    have hmap : ((refValidMoves g c).map fun m =>
        { m with score := m.score -
            refValue n (boardAfterPlace g m.x m.y c) (getOpponentPiece c) }) =
        refSearchMoves n g c := rfl
    rw [hmap, pickBest_pass]
    · rfl
    · intro m hm
      obtain ⟨m0, h0, hx, _⟩ := refSearchMoves_x n g c m hm
      rw [hx]
      exact inRange_ne_pass _ _ (refValidMoves_inRange g c m0 h0)

theorem getBestMove_eq (g : Board) (c d : Int) :
    getBestMove g c d = some (g, refBestMove (6 - d).toNat g c) := by
  unfold getBestMove
  exact getBestMoveFuel_eq _ g c d _ rfl (by unfold MAX_DEPTH; omega)

/-! ## The answer of aiMakeMove -/

theorem tiedMoves_mem (l : List Move) (m : Move) (h : m ∈ tiedMoves l) :
    m ∈ l ∧ m.score = maxScore l := by
  unfold tiedMoves at h
  rw [List.mem_filter] at h
  exact ⟨h.1, by simpa using h.2⟩

theorem refHardMoves_mem (g : Board) (c : Int) (m : Move) (h : m ∈ refHardMoves g c) :
    ∃ m0 ∈ refValidMoves g c, m = differentialMove g c m0 := by
  unfold refHardMoves at h
  rw [List.mem_map] at h
  obtain ⟨m0, h0, rfl⟩ := h
  exact ⟨m0, h0, rfl⟩

theorem refBestMove_nil (n : Nat) (g : Board) (c : Int) (h : refValidMoves g c = []) :
    refBestMove n g c = { x := MOVE_PASS, y := MOVE_PASS, score := 0 } := by
  cases n with
  | zero => rfl
  | succ n =>
    have hs : refSearchMoves n g c = [] := by unfold refSearchMoves; rw [h]; rfl
    rw [refBestMove, hs]
    rfl

theorem refBestMove_cons (n : Nat) (g : Board) (c : Int) (h : refValidMoves g c ≠ []) :
    ∃ m, (refSearchMoves n g c).find?
        (fun m => decide (m.score = maxScore (refSearchMoves n g c))) = some m ∧
      refBestMove (n + 1) g c = m := by
  have hne : refSearchMoves n g c ≠ [] := by
    unfold refSearchMoves
    simpa using h
  obtain ⟨m, hm, hms⟩ := maxScore_attained _ hne
  cases hf : (refSearchMoves n g c).find?
      (fun m => decide (m.score = maxScore (refSearchMoves n g c))) with
  | none =>
    rw [List.find?_eq_none] at hf
    exact absurd (by simpa using hms) (hf m hm)
  | some m2 =>
    refine ⟨m2, rfl, ?_⟩
    rw [refBestMove, hf]

theorem aiMakeMove_easy (g : Board) (c x0 y0 : Int) (rnd : Nat) :
    aiMakeMove g AI_EASY c x0 y0 rnd =
      (aiMakeMove_Easy (refValidMoves g c) rnd).bind fun r => some (g, r.1, r.2) := by
  unfold aiMakeMove
  rw [getValidMoves_eq, Option.some_bind, if_pos rfl]

theorem aiMakeMove_medium (g : Board) (c x0 y0 : Int) (rnd : Nat) :
    aiMakeMove g AI_MEDIUM c x0 y0 rnd =
      (aiMakeMove_Medium (refValidMoves g c) rnd).bind fun r => some (g, r.1, r.2) := by
  unfold aiMakeMove
  rw [getValidMoves_eq, Option.some_bind, if_neg (by decide), if_pos rfl]

theorem aiMakeMove_hard (g : Board) (c x0 y0 : Int) (rnd : Nat) :
    aiMakeMove g AI_HARD c x0 y0 rnd =
      (aiMakeMove_Hard g (refValidMoves g c) c rnd).bind fun r => some (g, r.1, r.2) := by
  unfold aiMakeMove
  rw [getValidMoves_eq, Option.some_bind, if_neg (by decide), if_neg (by decide), if_pos rfl]

theorem aiMakeMove_expert (g : Board) (c x0 y0 : Int) (rnd : Nat) :
    aiMakeMove g AI_EXPERT c x0 y0 rnd =
      some (g, (refBestMove 6 g c).x, (refBestMove 6 g c).y) := by
  unfold aiMakeMove
  rw [getValidMoves_eq, Option.some_bind, if_neg (by decide), if_neg (by decide),
    if_neg (by decide), if_pos rfl]
  unfold aiMakeMove_Expert
  rw [getBestMove_eq, Option.some_bind]
  rfl

theorem aiMakeMove_answer (g : Board) (d c x0 y0 : Int) (rnd : Nat)
    (hd : d = AI_EASY ∨ d = AI_MEDIUM ∨ d = AI_HARD ∨ d = AI_EXPERT) :
    (refValidMoves g c = [] →
        aiMakeMove g d c x0 y0 rnd = some (g, MOVE_PASS, MOVE_PASS)) ∧
      (refValidMoves g c ≠ [] →
        ∃ m ∈ refValidMoves g c, aiMakeMove g d c x0 y0 rnd = some (g, m.x, m.y)) := by
  rcases hd with rfl | rfl | rfl | rfl
  · rw [aiMakeMove_easy]
    refine ⟨fun h => by rw [h, aiMakeMove_Easy_nil]; rfl, fun h => ?_⟩
    obtain ⟨m, hm, he⟩ := aiMakeMove_Easy_eq _ rnd h
    exact ⟨m, List.getElem?_mem hm, by rw [he]; rfl⟩
  · rw [aiMakeMove_medium]
    refine ⟨fun h => by rw [h, aiMakeMove_Medium_nil]; rfl, fun h => ?_⟩
    obtain ⟨m, hm, he⟩ := aiMakeMove_Medium_eq _ rnd h
    exact ⟨m, (tiedMoves_mem _ m (List.getElem?_mem hm)).1, by rw [he]; rfl⟩
  · rw [aiMakeMove_hard]
    refine ⟨fun h => by rw [h, aiMakeMove_Hard_nil]; rfl, fun h => ?_⟩
    obtain ⟨m, hm, he⟩ := aiMakeMove_Hard_eq g c rnd h
    obtain ⟨m0, h0, rfl⟩ := refHardMoves_mem g c m (tiedMoves_mem _ m (List.getElem?_mem hm)).1
    exact ⟨m0, h0, by rw [he]; rfl⟩
  · rw [aiMakeMove_expert]
    refine ⟨fun h => by rw [refBestMove_nil 6 g c h], fun h => ?_⟩
    obtain ⟨m, hf, he⟩ := refBestMove_cons 5 g c h
    obtain ⟨m0, h0, hx, hy⟩ := refSearchMoves_x 5 g c m (List.mem_of_find?_eq_some hf)
    exact ⟨m0, h0, by rw [he, hx, hy]⟩

theorem refValidMoves_ne_nil (g : Board) (c : Int) :
    refValidMoves g c ≠ [] ↔ hasLegalMove g c = true := by
  rw [Ne, refValidMoves_eq_nil]
  cases hasLegalMove g c <;> simp

theorem flipScore_le_maxScore (g : Board) (c : Int) (u w : Int) (h : InRange u w) (m : Move)
    (hm : m ∈ refValidMoves g c) (hs : m.score = maxScore (refValidMoves g c)) :
    flipScore g c (u, w) ≤ flipScore g c (m.x, m.y) := by
  obtain ⟨_, hpos, hsc⟩ := (mem_refValidMoves g c m).mp hm
  by_cases hl : 0 < flipScore g c (u, w)
  · have hmem : moveAt g c (u, w) ∈ refValidMoves g c :=
      (mem_refValidMoves g c _).mpr ⟨h, hl, rfl⟩
    have := maxScore_ge_mem _ _ hmem
    rw [← hs, hsc] at this
    exact this
  · omega

/-! ## Claims on the AI engine -/

/-- C11: for every grid, colour Light or Dark, difficulty tier 1 to 4 and random
draw, `aiMakeMove` returns; it answers the Pass sentinel (-1, -1) exactly when
the colour has no legal move, and otherwise in-range coordinates at which
`boardCheckMove` without change gives a positive score. -/
theorem aiMakeMove_pass_iff_no_legal_move (g : Board) (c : Int)
    (hc : c = PIECE_WHITE ∨ c = PIECE_BLACK) (d : Int)
    (hd : d = AI_EASY ∨ d = AI_MEDIUM ∨ d = AI_HARD ∨ d = AI_EXPERT) (x0 y0 : Int) (rnd : Nat) :
    ∃ x y, aiMakeMove g d c x0 y0 rnd = some (g, x, y) ∧
      ((x = MOVE_PASS ∧ y = MOVE_PASS) ↔ hasLegalMove g c = false) ∧
      (hasLegalMove g c = true →
        InRange x y ∧ ∃ k, 0 < k ∧ boardCheckMove g x y c false = some (g, k)) := by
  obtain ⟨h1, h2⟩ := aiMakeMove_answer g d c x0 y0 rnd hd
  by_cases hl : hasLegalMove g c = true
  · obtain ⟨m, hm, he⟩ := h2 ((refValidMoves_ne_nil g c).mpr hl)
    obtain ⟨hr, hpos, _⟩ := (mem_refValidMoves g c m).mp hm
    refine ⟨m.x, m.y, he, ?_, fun _ => ⟨hr, ?_⟩⟩
    · constructor
      · intro hp
        exact absurd hp.1 (inRange_ne_pass _ _ hr)
      · intro hf
        rw [hl] at hf
        exact absurd hf (by decide)
    · rw [flipScore_eq g c (m.x, m.y) hr] at hpos
      exact ⟨_, hpos, boardCheckMove_false g m.x m.y c hr⟩
  · have hf : hasLegalMove g c = false := by simpa using hl
    refine ⟨MOVE_PASS, MOVE_PASS, h1 ((refValidMoves_eq_nil g c).mpr hf), ?_, fun h => ?_⟩
    · exact ⟨fun _ => hf, fun _ => ⟨rfl, rfl⟩⟩
    · exact absurd h hl

theorem aiMakeMove_pass_iff_no_legal_move_witness :
    (PIECE_BLACK = PIECE_WHITE ∨ PIECE_BLACK = PIECE_BLACK) ∧
      (AI_EXPERT = AI_EASY ∨ AI_EXPERT = AI_MEDIUM ∨ AI_EXPERT = AI_HARD ∨
        AI_EXPERT = AI_EXPERT) ∧
      ∃ x y, aiMakeMove cornerBoard AI_EXPERT PIECE_BLACK 0 0 3 = some (cornerBoard, x, y) ∧
        ((x = MOVE_PASS ∧ y = MOVE_PASS) ↔ hasLegalMove cornerBoard PIECE_BLACK = false) ∧
        (hasLegalMove cornerBoard PIECE_BLACK = true →
          InRange x y ∧
            ∃ k, 0 < k ∧ boardCheckMove cornerBoard x y PIECE_BLACK false =
              some (cornerBoard, k)) :=
  ⟨by decide, by decide,
    aiMakeMove_pass_iff_no_legal_move cornerBoard PIECE_BLACK (by decide) AI_EXPERT (by decide)
      0 0 3⟩

/-- C12: for every grid, colour, difficulty tier 1 to 4 and random draw,
`aiMakeMove` returns and the grid passed to it is the same after the call. -/
theorem aiMakeMove_leaves_grid (g : Board) (c d : Int)
    (hd : d = AI_EASY ∨ d = AI_MEDIUM ∨ d = AI_HARD ∨ d = AI_EXPERT) (x0 y0 : Int) (rnd : Nat) :
    ∃ x y, aiMakeMove g d c x0 y0 rnd = some (g, x, y) := by
  obtain ⟨h1, h2⟩ := aiMakeMove_answer g d c x0 y0 rnd hd
  by_cases hn : refValidMoves g c = []
  · exact ⟨_, _, h1 hn⟩
  · obtain ⟨m, _, he⟩ := h2 hn
    exact ⟨_, _, he⟩

theorem aiMakeMove_leaves_grid_witness :
    (AI_HARD = AI_EASY ∨ AI_HARD = AI_MEDIUM ∨ AI_HARD = AI_HARD ∨ AI_HARD = AI_EXPERT) ∧
      ∃ x y, aiMakeMove openingBoard AI_HARD PIECE_WHITE 0 0 5 = some (openingBoard, x, y) :=
  ⟨by decide, aiMakeMove_leaves_grid openingBoard PIECE_WHITE AI_HARD (by decide) 0 0 5⟩

/-- C13: for every grid, colour Light or Dark and depth `d`, `getBestMove`
returns, leaves the grid as it was, and answers `refBestMove` with 6 - d plies
left: its score is the value V (`refValue`), which is 0 when d > 5 or the colour
has no legal move and otherwise the maximum of the effective values (own flip
score less V for the opponent one ply further on the grid after the placement);
its coordinates are the Pass sentinel in the zero cases and otherwise those of
the first candidate in enumeration order whose effective value is that maximum.
The answer of the expert tier is the same for every random draw. -/
theorem getBestMove_eq_refBestMove (g : Board) (c : Int)
    (hc : c = PIECE_WHITE ∨ c = PIECE_BLACK) (d : Int) :
    getBestMove g c d = some (g, refBestMove (6 - d).toNat g c) ∧
      (refBestMove (6 - d).toNat g c).score = refValue (6 - d).toNat g c ∧
      (5 < d ∨ hasLegalMove g c = false →
        refBestMove (6 - d).toNat g c = { x := MOVE_PASS, y := MOVE_PASS, score := 0 }) ∧
      (d ≤ 5 → hasLegalMove g c = true →
        refValue (6 - d).toNat g c = maxScore (refSearchMoves (5 - d).toNat g c) ∧
        (refSearchMoves (5 - d).toNat g c).find?
            (fun m => decide (m.score = maxScore (refSearchMoves (5 - d).toNat g c))) =
          some (refBestMove (6 - d).toNat g c)) ∧
      (∀ (x0 y0 : Int) (rnd1 rnd2 : Nat),
        aiMakeMove g AI_EXPERT c x0 y0 rnd1 = aiMakeMove g AI_EXPERT c x0 y0 rnd2) := by
  refine ⟨getBestMove_eq g c d, refBestMove_score _ g c, ?_, ?_, ?_⟩
  · rintro (h | h)
    · have : (6 - d).toNat = 0 := by omega
      rw [this]
      rfl
    · exact refBestMove_nil _ g c ((refValidMoves_eq_nil g c).mpr h)
  · intro hd hl
    have e : (6 - d).toNat = (5 - d).toNat + 1 := by omega
    rw [e]
    obtain ⟨m, hf, he⟩ := refBestMove_cons (5 - d).toNat g c ((refValidMoves_ne_nil g c).mpr hl)
    exact ⟨rfl, by rw [he]; exact hf⟩
  · intro x0 y0 rnd1 rnd2
    rw [aiMakeMove_expert, aiMakeMove_expert]

theorem getBestMove_eq_refBestMove_witness :
    (PIECE_WHITE = PIECE_WHITE ∨ PIECE_WHITE = PIECE_BLACK) ∧
      getBestMove cornerBoard PIECE_WHITE 4 =
        some (cornerBoard, refBestMove (6 - 4 : Int).toNat cornerBoard PIECE_WHITE) :=
  ⟨by decide, (getBestMove_eq_refBestMove cornerBoard PIECE_WHITE (by decide) 4).1⟩

/-- C14: for every grid and colour Light or Dark with at least one legal move
and every random draw, the greedy tier returns an in-range legal cell whose
flip score is the maximum over all cells; and a cell that is the only one to
attain that maximum is the cell returned. -/
theorem medium_returns_maximal_score (g : Board) (c : Int)
    (hc : c = PIECE_WHITE ∨ c = PIECE_BLACK) (hl : hasLegalMove g c = true)
    (x0 y0 : Int) (rnd : Nat) :
    ∃ x y, aiMakeMove g AI_MEDIUM c x0 y0 rnd = some (g, x, y) ∧
      InRange x y ∧ 0 < flipScore g c (x, y) ∧
      (∀ u w, InRange u w → flipScore g c (u, w) ≤ flipScore g c (x, y)) ∧
      (∀ u w, InRange u w → flipScore g c (u, w) = flipScore g c (x, y) →
        (∀ u2 w2, InRange u2 w2 → flipScore g c (u2, w2) = flipScore g c (u, w) →
          u2 = u ∧ w2 = w) →
        x = u ∧ y = w) := by
  obtain ⟨m, hm, he⟩ := aiMakeMove_Medium_eq (refValidMoves g c) rnd
    ((refValidMoves_ne_nil g c).mpr hl)
  obtain ⟨hmem, hs⟩ := tiedMoves_mem _ m (List.getElem?_mem hm)
  obtain ⟨hr, hpos, _⟩ := (mem_refValidMoves g c m).mp hmem
  refine ⟨m.x, m.y, ?_, hr, hpos, ?_, ?_⟩
  · rw [aiMakeMove_medium, he]
    rfl
  · intro u w h
    exact flipScore_le_maxScore g c u w h m hmem hs
  · intro u w _ heq huniq
    exact huniq m.x m.y hr heq.symm

theorem medium_returns_maximal_score_witness :
    (PIECE_WHITE = PIECE_WHITE ∨ PIECE_WHITE = PIECE_BLACK) ∧
      hasLegalMove cornerBoard PIECE_WHITE = true ∧
      ∃ x y, aiMakeMove cornerBoard AI_MEDIUM PIECE_WHITE 0 0 7 = some (cornerBoard, x, y) ∧
        InRange x y ∧ 0 < flipScore cornerBoard PIECE_WHITE (x, y) ∧
        (∀ u w, InRange u w →
          flipScore cornerBoard PIECE_WHITE (u, w) ≤ flipScore cornerBoard PIECE_WHITE (x, y)) ∧
        (∀ u w, InRange u w →
          flipScore cornerBoard PIECE_WHITE (u, w) = flipScore cornerBoard PIECE_WHITE (x, y) →
          (∀ u2 w2, InRange u2 w2 →
            flipScore cornerBoard PIECE_WHITE (u2, w2) =
              flipScore cornerBoard PIECE_WHITE (u, w) → u2 = u ∧ w2 = w) →
          x = u ∧ y = w) :=
  ⟨by decide, by decide!,
    medium_returns_maximal_score cornerBoard PIECE_WHITE (by decide) (by decide!) 0 0 7⟩

/-- C15: for every grid and colour Light or Dark with at least one legal move
and every random draw `rnd`, with `t` the number of candidates that tie for the
maximal flip score: the first walk of the greedy tier counts `t`, the second
walk ends on a node of the list, and the tier returns the candidate number
`rnd mod t` (from 0) among the tied ones in enumeration order. -/
theorem medium_tie_break (g : Board) (c : Int)
    (hc : c = PIECE_WHITE ∨ c = PIECE_BLACK) (hl : hasLegalMove g c = true)
    (x0 y0 : Int) (rnd : Nat) :
    0 < (tiedMoves (refValidMoves g c)).length ∧
      (findBestLoop (refValidMoves g c) none 0).2 =
        (((tiedMoves (refValidMoves g c)).length : Nat) : Int) ∧
      ∃ m, (tiedMoves (refValidMoves g c))[rnd % (tiedMoves (refValidMoves g c)).length]? =
          some m ∧
        selectTiedLoop (maxScore (refValidMoves g c)) (refValidMoves g c)
          ((rnd : Int) % (((tiedMoves (refValidMoves g c)).length : Nat) : Int)) = some m ∧
        aiMakeMove g AI_MEDIUM c x0 y0 rnd = some (g, m.x, m.y) := by
  have hne := (refValidMoves_ne_nil g c).mpr hl
  have hpos := tiedMoves_pos _ hne
  obtain ⟨b, hb, _⟩ := findBestLoop_none _ hne
  obtain ⟨m, hm, he⟩ := aiMakeMove_Medium_eq (refValidMoves g c) rnd hne
  obtain ⟨h0, h1⟩ := mod_bounds rnd (tiedMoves (refValidMoves g c)).length hpos
  refine ⟨hpos, by rw [hb], m, hm, ?_, ?_⟩
  · rw [selectTiedLoop_eq _ _ _ h0 h1, natCast_mod_toNat]
    exact hm
  · rw [aiMakeMove_medium, he]
    rfl

theorem medium_tie_break_witness :
    (PIECE_WHITE = PIECE_WHITE ∨ PIECE_WHITE = PIECE_BLACK) ∧
      hasLegalMove openingBoard PIECE_WHITE = true ∧
      0 < (tiedMoves (refValidMoves openingBoard PIECE_WHITE)).length ∧
      (findBestLoop (refValidMoves openingBoard PIECE_WHITE) none 0).2 =
        (((tiedMoves (refValidMoves openingBoard PIECE_WHITE)).length : Nat) : Int) ∧
      ∃ m, (tiedMoves (refValidMoves openingBoard PIECE_WHITE))[
            6 % (tiedMoves (refValidMoves openingBoard PIECE_WHITE)).length]? = some m ∧
        selectTiedLoop (maxScore (refValidMoves openingBoard PIECE_WHITE))
          (refValidMoves openingBoard PIECE_WHITE)
          (((6 : Nat) : Int) %
            (((tiedMoves (refValidMoves openingBoard PIECE_WHITE)).length : Nat) : Int)) =
          some m ∧
        aiMakeMove openingBoard AI_MEDIUM PIECE_WHITE 0 0 6 = some (openingBoard, m.x, m.y) :=
  ⟨by decide, by decide!,
    medium_tie_break openingBoard PIECE_WHITE (by decide) (by decide!) 0 0 6⟩

/-- C16: for every grid and colour Light or Dark with at least one legal move
and every random draw `rnd`, the one-ply differential tier returns a legal move
whose D value (own flip score less the opponent's best immediate flip score on
the grid after the placement, 0 when the opponent has no legal move) is the
maximum over all legal moves; with `t` moves at that maximum it is number
`rnd mod t` (from 0) among them in enumeration order. -/
theorem hard_returns_maximal_differential (g : Board) (c : Int)
    (hc : c = PIECE_WHITE ∨ c = PIECE_BLACK) (hl : hasLegalMove g c = true)
    (x0 y0 : Int) (rnd : Nat) :
    ∃ m, (tiedMoves (refHardMoves g c))[rnd % (tiedMoves (refHardMoves g c)).length]? =
        some m ∧
      aiMakeMove g AI_HARD c x0 y0 rnd = some (g, m.x, m.y) ∧
      InRange m.x m.y ∧ 0 < flipScore g c (m.x, m.y) ∧
      m.score = flipScore g c (m.x, m.y) -
        opponentBest (boardAfterPlace g m.x m.y c) c ∧
      (∀ u w, InRange u w → 0 < flipScore g c (u, w) →
        flipScore g c (u, w) - opponentBest (boardAfterPlace g u w c) c ≤ m.score) := by
  have hne := (refValidMoves_ne_nil g c).mpr hl
  obtain ⟨m, hm, he⟩ := aiMakeMove_Hard_eq g c rnd hne
  obtain ⟨hmem, hs⟩ := tiedMoves_mem _ m (List.getElem?_mem hm)
  obtain ⟨m0, h0, rfl⟩ := refHardMoves_mem g c m hmem
  obtain ⟨hr, hpos, hsc⟩ := (mem_refValidMoves g c m0).mp h0
  refine ⟨_, hm, ?_, hr, hpos, ?_, ?_⟩
  · rw [aiMakeMove_hard, he]
    rfl
  · show m0.score - _ = _
    rw [hsc]
    rfl
  · intro u w hu hp
    have hmem2 : differentialMove g c (moveAt g c (u, w)) ∈ refHardMoves g c :=
      List.mem_map.mpr ⟨_, (mem_refValidMoves g c _).mpr ⟨hu, hp, rfl⟩, rfl⟩
    have := maxScore_ge_mem _ _ hmem2
    rw [← hs] at this
    exact this

theorem hard_returns_maximal_differential_witness :
    (PIECE_WHITE = PIECE_WHITE ∨ PIECE_WHITE = PIECE_BLACK) ∧
      hasLegalMove openingBoard PIECE_WHITE = true ∧
      ∃ m, (tiedMoves (refHardMoves openingBoard PIECE_WHITE))[
            5 % (tiedMoves (refHardMoves openingBoard PIECE_WHITE)).length]? = some m ∧
        aiMakeMove openingBoard AI_HARD PIECE_WHITE 0 0 5 = some (openingBoard, m.x, m.y) ∧
        InRange m.x m.y ∧ 0 < flipScore openingBoard PIECE_WHITE (m.x, m.y) ∧
        m.score = flipScore openingBoard PIECE_WHITE (m.x, m.y) -
          opponentBest (boardAfterPlace openingBoard m.x m.y PIECE_WHITE) PIECE_WHITE ∧
        (∀ u w, InRange u w → 0 < flipScore openingBoard PIECE_WHITE (u, w) →
          flipScore openingBoard PIECE_WHITE (u, w) -
            opponentBest (boardAfterPlace openingBoard u w PIECE_WHITE) PIECE_WHITE ≤
              m.score) :=
  ⟨by decide, by decide!,
    hard_returns_maximal_differential openingBoard PIECE_WHITE (by decide) (by decide!) 0 0 5⟩

/-- C19: for every grid, colour and depth d ≥ 0, `getBestMove` returns; a budget
of 6 - d nested calls below the call itself is enough and a larger budget gives
the same result; a call at a depth d ≤ 5 makes its nested calls at depth d + 1
only, so a call started at depth 0 runs within the budget of 7 calls, at depths
0 to 6; and a call at a depth above 5, depth 6 in particular, returns the Pass
sentinel with score 0 with no nested call. -/
theorem getBestMove_terminates (g : Board) (c d : Int) (hd : 0 ≤ d) :
    (∃ m, getBestMove g c d = some (g, m)) ∧
      (∀ fuel, (6 - d).toNat + 1 ≤ fuel → getBestMoveFuel fuel g c d = getBestMove g c d) ∧
      (d ≤ 5 → 1 ≤ d + 1 ∧ d + 1 ≤ 6 ∧
        getBestMove g c d =
          (getValidMoves g c).bind fun v =>
            (bestMoveLoop (fun t => getBestMove t (getOpponentPiece c) (d + 1)) v.1 c v.2
              { x := MOVE_PASS, y := MOVE_PASS, score := 0 }).bind fun best =>
                some (v.1, best)) ∧
      getBestMove g c 0 = getBestMoveFuel 7 g c 0 ∧
      (5 < d → getBestMove g c d = some (g, { x := MOVE_PASS, y := MOVE_PASS, score := 0 })) ∧
      getBestMoveFuel 1 g c 6 = some (g, { x := MOVE_PASS, y := MOVE_PASS, score := 0 }) := by
  refine ⟨⟨_, getBestMove_eq g c d⟩, ?_, ?_, rfl, ?_, rfl⟩
  · intro fuel hf
    rw [getBestMove_eq, getBestMoveFuel_eq _ g c d fuel rfl hf]
  · intro h5
    refine ⟨by omega, by omega, ?_⟩
    have e : (MAX_DEPTH + 1 - d).toNat = (MAX_DEPTH + 1 - (d + 1)).toNat + 1 := by
      unfold MAX_DEPTH; omega
    have hnd : ¬ d > MAX_DEPTH := by unfold MAX_DEPTH; omega
    unfold getBestMove
    rw [e, getBestMoveFuel, if_neg hnd]
  · intro h5
    rw [getBestMove_eq]
    have : (6 - d).toNat = 0 := by omega
    rw [this]
    rfl

theorem getBestMove_terminates_witness :
    (0 : Int) ≤ 0 ∧ ∃ m, getBestMove cornerBoard PIECE_WHITE 0 = some (cornerBoard, m) :=
  ⟨le_refl _, (getBestMove_terminates cornerBoard PIECE_WHITE 0 (le_refl _)).1⟩

/-! ## Counting cells -/

theorem setCell_apply (b : Board) (i0 j0 : Fin 8) (v : Int) (p : Fin 8 × Fin 8) :
    setCell b (i0.val : Int) (j0.val : Int) v p.1 p.2 = if p = (i0, j0) then v else b p.1 p.2 := by
  unfold setCell
  by_cases h : p = (i0, j0)
  · subst h
    simp
  · have h2 : ¬ (((p.1.val : Nat) : Int) = (i0.val : Int) ∧ ((p.2.val : Nat) : Int) = (j0.val : Int)) := by
      rintro ⟨h1, h2⟩
      apply h
      apply Prod.ext
      · exact Fin.ext (by exact_mod_cast h1)
      · exact Fin.ext (by exact_mod_cast h2)
    rw [if_neg h2, if_neg h]

theorem countCells_setCell_fin (b : Board) (i0 j0 : Fin 8) (v : Int) (hne : b i0 j0 ≠ v) :
    countCells (setCell b (i0.val : Int) (j0.val : Int) v) v = countCells b v + 1 ∧
      countCells (setCell b (i0.val : Int) (j0.val : Int) v) (b i0 j0) + 1 =
        countCells b (b i0 j0) ∧
      ∀ w, w ≠ v → w ≠ b i0 j0 →
        countCells (setCell b (i0.val : Int) (j0.val : Int) v) w = countCells b w := by
  unfold countCells
  refine ⟨?_, ?_, ?_⟩
  · have : (Finset.univ.filter fun p : Fin 8 × Fin 8 =>
        setCell b (i0.val : Int) (j0.val : Int) v p.1 p.2 = v) =
        insert (i0, j0) (Finset.univ.filter fun p : Fin 8 × Fin 8 => b p.1 p.2 = v) := by
      ext p
      simp only [Finset.mem_filter, Finset.mem_univ, true_and, Finset.mem_insert, setCell_apply]
      by_cases h : p = (i0, j0)
      · simp [h]
      · simp [h]
    rw [this, Finset.card_insert_of_not_mem]
    simp [hne]
  · have : (Finset.univ.filter fun p : Fin 8 × Fin 8 => b p.1 p.2 = b i0 j0) =
        insert (i0, j0) (Finset.univ.filter fun p : Fin 8 × Fin 8 =>
          setCell b (i0.val : Int) (j0.val : Int) v p.1 p.2 = b i0 j0) := by
      ext p
      simp only [Finset.mem_filter, Finset.mem_univ, true_and, Finset.mem_insert, setCell_apply]
      by_cases h : p = (i0, j0)
      · simp [h]
      · simp [h]
    rw [this, Finset.card_insert_of_not_mem]
    simp only [Finset.mem_filter, Finset.mem_univ, true_and, setCell_apply, if_true]
    exact fun h => hne h.symm
  · intro w hwv hwa
    congr 1
    ext p
    simp only [Finset.mem_filter, Finset.mem_univ, true_and, setCell_apply]
    by_cases h : p = (i0, j0)
    · subst h
      simp only [if_true]
      exact ⟨fun e => absurd e.symm hwv, fun e => absurd e.symm hwa⟩
    · simp [h]

theorem countCells_setCell (b : Board) (x y v : Int) (hx : InRange x y)
    (hne : getCell b x y ≠ v) :
    countCells (setCell b x y v) v = countCells b v + 1 ∧
      countCells (setCell b x y v) (getCell b x y) + 1 = countCells b (getCell b x y) ∧
      ∀ w, w ≠ v → w ≠ getCell b x y → countCells (setCell b x y v) w = countCells b w := by
  unfold InRange at hx
  obtain ⟨i0, rfl⟩ : ∃ i0 : Fin 8, x = (i0.val : Int) :=
    ⟨⟨x.toNat, by omega⟩, by simp only; omega⟩
  obtain ⟨j0, rfl⟩ : ∃ j0 : Fin 8, y = (j0.val : Int) :=
    ⟨⟨y.toNat, by omega⟩, by simp only; omega⟩
  rw [getCell_eq] at hne ⊢
  exact countCells_setCell_fin b _ _ v hne

theorem ray_injective (d : Int × Int) (hd : d ∈ directions) (x y : Int) (i j : Nat)
    (h : x + (i : Int) * d.1 = x + (j : Int) * d.1 ∧ y + (i : Int) * d.2 = y + (j : Int) * d.2) :
    i = j := by
  rw [mem_directions] at hd
  obtain ⟨h1, h2⟩ := h
  rcases hd with rfl | rfl | rfl | rfl | rfl | rfl | rfl | rfl <;> dsimp only at h1 h2 <;> omega

theorem not_onRay_self (d : Int × Int) (hd : d ∈ directions) (x y : Int) (n : Nat) :
    ¬ OnRay x y d.1 d.2 n x y := by
  rintro ⟨j, hj, h1, h2⟩
  rw [Finset.mem_Icc] at hj
  rw [mem_directions] at hd
  rcases hd with rfl | rfl | rfl | rfl | rfl | rfl | rfl | rfl <;> dsimp only at h1 h2 <;> omega

theorem changeTiles_count (x y c o : Int) (d : Int × Int) (hd : d ∈ directions) (hoc : o ≠ c) :
    ∀ (n : Nat) (b : Board),
      (∀ j : Nat, 1 ≤ j → j ≤ n →
        InRange (x + (j : Int) * d.1) (y + (j : Int) * d.2) ∧
          getCell b (x + (j : Int) * d.1) (y + (j : Int) * d.2) = o) →
      countCells (changeTiles b x y d.1 d.2 c n) c = countCells b c + n ∧
        countCells (changeTiles b x y d.1 d.2 c n) o + n = countCells b o ∧
        ∀ w, w ≠ c → w ≠ o → countCells (changeTiles b x y d.1 d.2 c n) w = countCells b w := by
  intro n
  induction n with
  | zero => intro b _; exact ⟨rfl, rfl, fun _ _ _ => rfl⟩
  | succ n ih =>
    intro b h
    obtain ⟨hr, hv⟩ := h (n + 1) (by omega) (le_refl _)
    obtain ⟨s1, s2, s3⟩ := countCells_setCell b _ _ c hr (by rw [hv]; exact hoc)
    rw [hv] at s2 s3
    have hb1 : ∀ j : Nat, 1 ≤ j → j ≤ n →
        InRange (x + (j : Int) * d.1) (y + (j : Int) * d.2) ∧
          getCell (setCell b (x + ((n + 1 : Nat) : Int) * d.1) (y + ((n + 1 : Nat) : Int) * d.2) c)
            (x + (j : Int) * d.1) (y + (j : Int) * d.2) = o := by
      intro j h1 h2
      obtain ⟨hrj, hvj⟩ := h j h1 (by omega)
      refine ⟨hrj, ?_⟩
      rw [getCell_setCell, if_neg, hvj]
      rintro ⟨_, e1, e2⟩
      have := ray_injective d hd x y j (n + 1) ⟨e1, e2⟩
      omega
    obtain ⟨t1, t2, t3⟩ := ih _ hb1
    rw [changeTiles]
    refine ⟨by omega, by omega, fun w hwc hwo => ?_⟩
    rw [t3 w hwc hwo, s3 w hwc hwo]

theorem flanked_cells (g : Board) (hv : ValidBoard g) (x y c : Int)
    (hc : c = PIECE_WHITE ∨ c = PIECE_BLACK) (d : Int × Int) (hd : d ∈ directions)
    (hx : InRange x y) (j : Nat) (h1 : 1 ≤ j) (h2 : j ≤ (dirCount g x y c d).toNat) :
    InRange (x + (j : Int) * d.1) (y + (j : Int) * d.2) ∧
      getCell g (x + (j : Int) * d.1) (y + (j : Int) * d.2) = getOpponentPiece c := by
  rw [dirCount_eq_flankedRunLength g hv x y c hc d hd hx] at h2
  have hpos : 0 < flankedRunLength g x y d.1 d.2 c := by omega
  obtain ⟨_, hfl⟩ := flanked_of_flankedRunLength g x y d.1 d.2 c hpos
  exact hfl.1 j (Finset.mem_Icc.mpr ⟨h1, h2⟩)

theorem turnoversFrom_count (g : Board) (hv : ValidBoard g) (x y c : Int)
    (hc : c = PIECE_WHITE ∨ c = PIECE_BLACK) (hx : InRange x y) :
    ∀ (ds : List (Int × Int)) (b : Board) (s : Int) (b2 : Board) (s2 : Int),
      (∀ d ∈ ds, d ∈ directions) → ds.Nodup →
      (∀ d ∈ ds, ∀ i : Nat, 1 ≤ i → getCell b (x + (i : Int) * d.1) (y + (i : Int) * d.2) =
        getCell g (x + (i : Int) * d.1) (y + (i : Int) * d.2)) →
      turnoversFrom x y c true ds b s = some (b2, s2) →
      ((countCells b2 c : Nat) : Int) = countCells b c + (s2 - s) ∧
        ((countCells b2 (getOpponentPiece c) : Nat) : Int) + (s2 - s) =
          countCells b (getOpponentPiece c) ∧
        countCells b2 0 = countCells b 0 := by
  intro ds
  induction ds with
  | nil =>
    intro b s b2 s2 _ _ _ h
    simp only [turnoversFrom, Option.some.injEq, Prod.mk.injEq] at h
    obtain ⟨rfl, rfl⟩ := h
    exact ⟨by omega, by omega, rfl⟩
  | cons d ds ih =>
    intro b s b2 s2 hds hnd hag h
    have hdm := hds d (List.mem_cons_self _ _)
    have hcnt : dirCount b x y c d = dirCount g x y c d :=
      dirCount_congr b g x y c d (hag d (List.mem_cons_self _ _))
    have hnn := (doPieceTurnovers_false g x y c d hdm hx).2
    rw [List.nodup_cons] at hnd
    rw [turnoversFrom, doPieceTurnovers_true b x y c d hdm hx, Option.some_bind, hcnt] at h
    have hag2 : ∀ e ∈ ds, ∀ i : Nat, 1 ≤ i →
        getCell (changeTiles b x y d.1 d.2 c (dirCount g x y c d).toNat)
          (x + (i : Int) * e.1) (y + (i : Int) * e.2) =
        getCell g (x + (i : Int) * e.1) (y + (i : Int) * e.2) := by
      intro e he i hi
      rw [getCell_changeTiles, if_neg, hag e (List.mem_cons_of_mem _ he) i hi]
      rintro ⟨_, j, hj, h1, h2⟩
      rw [Finset.mem_Icc] at hj
      have hne : e ≠ d := fun h => hnd.1 (h ▸ he)
      exact ray_disjoint e d (hds e (List.mem_cons_of_mem _ he)) hdm hne x y i j hi hj.1 ⟨h1, h2⟩
    obtain ⟨i1, i2, i3⟩ := ih _ _ b2 s2 (fun e he => hds e (List.mem_cons_of_mem _ he)) hnd.2 hag2 h
    have hcells : ∀ j : Nat, 1 ≤ j → j ≤ (dirCount g x y c d).toNat →
        InRange (x + (j : Int) * d.1) (y + (j : Int) * d.2) ∧
          getCell b (x + (j : Int) * d.1) (y + (j : Int) * d.2) = getOpponentPiece c := by
      intro j h1 h2
      obtain ⟨a1, a2⟩ := flanked_cells g hv x y c hc d hdm hx j h1 h2
      exact ⟨a1, by rw [hag d (List.mem_cons_self _ _) j h1, a2]⟩
    obtain ⟨hoc, ho0⟩ := getOpponentPiece_ne c hc
    have hc0 : (0 : Int) ≠ c := by rcases hc with rfl | rfl <;> decide
    obtain ⟨t1, t2, t3⟩ := changeTiles_count x y c (getOpponentPiece c) d hdm hoc _ b hcells
    have t0 := t3 0 hc0 (fun e => ho0 e.symm)
    refine ⟨by omega, by omega, by omega⟩

theorem countCells_openingBoard : countCells openingBoard PIECE_EMPTY = 60 := by decide!

theorem boardPlace_count (g : Board) (hv : ValidBoard g) (x y : Int) (hx : InRange x y)
    (c : Int) (hc : c = PIECE_WHITE ∨ c = PIECE_BLACK) :
    ∃ g2 k, boardPlace g x y c = some (g2, k) ∧
      (0 < k →
        ((countCells g2 c : Nat) : Int) = countCells g c + k + 1 ∧
        ((countCells g2 (getOpponentPiece c) : Nat) : Int) + k =
          countCells g (getOpponentPiece c) ∧
        countCells g2 PIECE_EMPTY + 1 = countCells g PIECE_EMPTY) := by
  unfold boardPlace
  rw [boardCheckMove_eq]
  by_cases h : c = 0 ∨ getCell g x y ≠ 0
  · rw [if_pos h, Option.some_bind]
    exact ⟨g, 0, by simp, fun h0 => absurd h0 (lt_irrefl _)⟩
  · rw [if_neg h]
    obtain ⟨b1, h1, h2⟩ := turnoversFrom_true g x y c hx directions g 0 (fun _ hd => hd)
      directions_nodup (fun _ _ _ _ => rfl)
    obtain ⟨c1, c2, c3⟩ := turnoversFrom_count g hv x y c hc hx directions g 0 b1 _
      (fun _ hd => hd) directions_nodup (fun _ _ _ _ => rfl) h1
    rw [h1, Option.some_bind]
    by_cases hpos : 0 < 0 + (directions.map (dirCount g x y c)).sum
    · refine ⟨setCell b1 x y c, 0 + (directions.map (dirCount g x y c)).sum, ?_, fun _ => ?_⟩
      · simp only [gt_iff_lt, hpos, if_true]
      · have hg0 : getCell g x y = 0 := by
          by_contra hne
          exact h (Or.inr hne)
        have htarget : getCell b1 x y = 0 := by
          rw [h2, if_neg, hg0]
          rintro ⟨_, d, hd, hray⟩
          exact not_onRay_self d hd x y _ hray
        obtain ⟨hoc, ho0⟩ := getOpponentPiece_ne c hc
        have hc0 : c ≠ 0 := by rcases hc with rfl | rfl <;> decide
        obtain ⟨s1, s2, s3⟩ := countCells_setCell b1 x y c hx
          (by rw [htarget]; exact fun e => hc0 e.symm)
        rw [htarget] at s2 s3
        have s4 := s3 (getOpponentPiece c) hoc ho0
        refine ⟨by omega, by omega, ?_⟩
        show countCells (setCell b1 x y c) 0 + 1 = countCells g 0
        omega
    · exact ⟨b1, 0 + (directions.map (dirCount g x y c)).sum,
        by simp only [gt_iff_lt, hpos, if_false], fun hk => absurd hk hpos⟩

theorem boardPlace_valid (g : Board) (hv : ValidBoard g) (x y : Int) (hx : InRange x y)
    (c : Int) (hc : c = PIECE_WHITE ∨ c = PIECE_BLACK) (g2 : Board) (k : Int)
    (h : boardPlace g x y c = some (g2, k)) : ValidBoard g2 ∧ (¬ 0 < k → g2 = g) := by
  obtain ⟨b2, hp, hz, hcell⟩ := boardPlace_eq g x y c hx
  rw [hp] at h
  simp only [Option.some.injEq, Prod.mk.injEq] at h
  obtain ⟨rfl, rfl⟩ := h
  have hnn := moveScore_nonneg g x y c hx
  by_cases hpos : 0 < moveScore g x y c
  · refine ⟨?_, fun hn => absurd hpos hn⟩
    intro i j
    have := (hcell hpos).2 i.val j.val
    rw [getCell_eq, getCell_eq] at this
    rw [this]
    split_ifs
    · rcases hc with rfl | rfl
      · exact Or.inr (Or.inl rfl)
      · exact Or.inr (Or.inr rfl)
    · exact hv i j
  · have hb := hz (by omega)
    subst hb
    exact ⟨hv, fun _ => rfl⟩

theorem runPlacements_count :
    ∀ (moves : List (Int × Int × Int)) (g : Board), ValidBoard g →
      (∀ m ∈ moves, InRange m.1 m.2.1 ∧ (m.2.2 = PIECE_WHITE ∨ m.2.2 = PIECE_BLACK)) →
      ∃ b n, runPlacements g moves = some (b, n) ∧ ValidBoard b ∧
        countCells b PIECE_EMPTY + n = countCells g PIECE_EMPTY := by
  intro moves
  induction moves with
  | nil => intro g hv _; exact ⟨g, 0, rfl, hv, rfl⟩
  | cons m ms ih =>
    intro g hv hm
    obtain ⟨hr, hc⟩ := hm m (List.mem_cons_self _ _)
    obtain ⟨g2, k, hp, hcount⟩ := boardPlace_count g hv m.1 m.2.1 hr m.2.2 hc
    obtain ⟨hv2, hsame⟩ := boardPlace_valid g hv m.1 m.2.1 hr m.2.2 hc g2 k hp
    obtain ⟨b, n, hrun, hvb, hn⟩ := ih g2 hv2 (fun e he => hm e (List.mem_cons_of_mem _ he))
    refine ⟨b, n + if k > 0 then 1 else 0, ?_, hvb, ?_⟩
    · rw [runPlacements, hp, Option.some_bind, hrun, Option.some_bind]
    · by_cases hpos : 0 < k
      · have := (hcount hpos).2.2
        simp only [gt_iff_lt, hpos, if_true]
        omega
      · have hg := hsame hpos
        subst hg
        simp only [gt_iff_lt, hpos, if_false]
        omega

/-! ## Claims on counts and on the AI turn -/

/-- C21: for every grid, in-range target and colour Light or Dark,
`boardCheckMove` with change returns the same count as without change on the
same starting grid; the cells of two different rays from the target are never
the same cell. -/
theorem boardCheckMove_change_same_count (g : Board) (x y : Int) (hx : InRange x y) (c : Int)
    (hc : c = PIECE_WHITE ∨ c = PIECE_BLACK) :
    (∃ g2 k, boardCheckMove g x y c true = some (g2, k) ∧
        boardCheckMove g x y c false = some (g, k)) ∧
      ∀ d ∈ directions, ∀ e ∈ directions, d ≠ e → ∀ i j : Nat, 1 ≤ i → 1 ≤ j →
        ¬ (x + (i : Int) * d.1 = x + (j : Int) * e.1 ∧
          y + (i : Int) * d.2 = y + (j : Int) * e.2) := by
  obtain ⟨b2, h1, _, _⟩ := boardCheckMove_true g x y c hx
  exact ⟨⟨b2, _, h1, boardCheckMove_false g x y c hx⟩,
    fun d hd e he hne i j hi hj => ray_disjoint d e hd he hne x y i j hi hj⟩

theorem boardCheckMove_change_same_count_witness :
    InRange 2 4 ∧ (PIECE_WHITE = PIECE_WHITE ∨ PIECE_WHITE = PIECE_BLACK) ∧
      ∃ g2 k, boardCheckMove openingBoard 2 4 PIECE_WHITE true = some (g2, k) ∧
        boardCheckMove openingBoard 2 4 PIECE_WHITE false = some (openingBoard, k) :=
  ⟨by decide, by decide,
    (boardCheckMove_change_same_count openingBoard 2 4 (by decide) PIECE_WHITE (by decide)).1⟩

/-- C22: on a grid whose cells are Empty, Light or Dark, for an in-range target
and a colour `c` in Light, Dark, `boardPlace` returns, and when its count `k` is
positive the number of `c` cells grows by k + 1, the number of opponent cells
falls by k and the number of Empty cells falls by 1.  Hence every sequence of
`boardPlace` calls run from the grid `boardReset` produces has at most 60 calls
with a positive count. -/
theorem boardPlace_cell_counts (g : Board) (hv : ValidBoard g) (x y : Int) (hx : InRange x y)
    (c : Int) (hc : c = PIECE_WHITE ∨ c = PIECE_BLACK) :
    (∃ g2 k, boardPlace g x y c = some (g2, k) ∧
      (0 < k →
        ((countCells g2 c : Nat) : Int) = countCells g c + k + 1 ∧
        ((countCells g2 (getOpponentPiece c) : Nat) : Int) + k =
          countCells g (getOpponentPiece c) ∧
        countCells g2 PIECE_EMPTY + 1 = countCells g PIECE_EMPTY)) ∧
      ∀ (b0 : Board) (moves : List (Int × Int × Int)),
        (∀ m ∈ moves, InRange m.1 m.2.1 ∧ (m.2.2 = PIECE_WHITE ∨ m.2.2 = PIECE_BLACK)) →
        ∃ b n, runPlacements (boardReset b0) moves = some (b, n) ∧
          countCells b PIECE_EMPTY + n = 60 ∧ n ≤ 60 := by
  refine ⟨boardPlace_count g hv x y hx c hc, fun b0 moves hm => ?_⟩
  rw [boardReset_eq_openingBoard]
  obtain ⟨b, n, hrun, _, hn⟩ := runPlacements_count moves openingBoard (by decide!) hm
  rw [countCells_openingBoard] at hn
  exact ⟨b, n, hrun, hn, by omega⟩

theorem boardPlace_cell_counts_witness :
    ValidBoard openingBoard ∧ InRange 2 4 ∧
      (PIECE_WHITE = PIECE_WHITE ∨ PIECE_WHITE = PIECE_BLACK) ∧
      ∃ g2 k, boardPlace openingBoard 2 4 PIECE_WHITE = some (g2, k) ∧
        (0 < k →
          ((countCells g2 PIECE_WHITE : Nat) : Int) = countCells openingBoard PIECE_WHITE + k + 1 ∧
          ((countCells g2 (getOpponentPiece PIECE_WHITE) : Nat) : Int) + k =
            countCells openingBoard (getOpponentPiece PIECE_WHITE) ∧
          countCells g2 PIECE_EMPTY + 1 = countCells openingBoard PIECE_EMPTY) :=
  ⟨by decide!, by decide, by decide,
    (boardPlace_cell_counts openingBoard (by decide!) 2 4 (by decide) PIECE_WHITE (by decide)).1⟩

/-- C23: for every state with turn Light or Dark, difficulty tier 1 to 4 and
random draw, once the delay has passed the AI turn step for the colour to move
returns: `aiMakeMove` on the copy of the board answers (x, y), and
`gameDoCurrentTurn` with (x, y) and force gives a state whose turn is the other
colour; its grid is the grid `boardPlace` leaves at (x, y), with a positive
count, when (x, y) is not the Pass sentinel, and the grid as it was when it
is. -/
theorem ai_turn_step (s : State) (hturn : s.turn = PIECE_WHITE ∨ s.turn = PIECE_BLACK)
    (d : Int) (hd : d = AI_EASY ∨ d = AI_MEDIUM ∨ d = AI_HARD ∨ d = AI_EXPERT)
    (aiTicks : Int) (ticks rnd : Nat)
    (hdelay : ((ticks : Int) - aiTicks) % 4294967296 ≥ AI_DELAY) :
    ∃ x y s2,
      aiMakeMove (boardCopy (fun _ _ => 0) s.board) d s.turn MOVE_PASS MOVE_PASS rnd =
        some (boardCopy (fun _ _ => 0) s.board, x, y) ∧
      gameDoCurrentTurn s x y true = some s2 ∧
      doAITurn s d s.turn aiTicks ticks rnd = some (s2, true) ∧
      s2.turn = getOpponentPiece s.turn ∧ getOpponentPiece s.turn ≠ s.turn ∧
      ((x = MOVE_PASS ∧ y = MOVE_PASS) → s2.board = s.board) ∧
      (¬ (x = MOVE_PASS ∧ y = MOVE_PASS) →
        InRange x y ∧ ∃ k, 0 < k ∧ boardPlace s.board x y s.turn = some (s2.board, k)) := by
  have hopp := getOpponentPiece_ne_self s.turn hturn
  obtain ⟨h1, h2⟩ := aiMakeMove_answer s.board d s.turn MOVE_PASS MOVE_PASS rnd hd
  unfold doAITurn
  rw [if_pos rfl, if_pos hdelay, boardCopy_eq]
  by_cases hn : refValidMoves s.board s.turn = []
  · have hl : hasLegalMove s.board s.turn = false := (refValidMoves_eq_nil _ _).mp hn
    have hg : gameDoCurrentTurn s MOVE_PASS MOVE_PASS true =
        some { board := s.board, turn := getOpponentPiece s.turn } := by
      rw [gameDoCurrentTurn_pass, hl]
      rfl
    refine ⟨MOVE_PASS, MOVE_PASS, _, h1 hn, hg, ?_, rfl, hopp, fun _ => rfl,
      fun h => absurd ⟨rfl, rfl⟩ h⟩
    rw [h1 hn, Option.some_bind, hg, Option.some_bind]
  · obtain ⟨m, hm, he⟩ := h2 hn
    obtain ⟨hr, hpos, _⟩ := (mem_refValidMoves s.board s.turn m).mp hm
    rw [flipScore_eq s.board s.turn (m.x, m.y) hr] at hpos
    obtain ⟨b2, hp, _, _⟩ := boardPlace_eq s.board m.x m.y s.turn hr
    have hg : gameDoCurrentTurn s m.x m.y true =
        some { board := b2, turn := getOpponentPiece s.turn } := by
      rw [gameDoCurrentTurn_place s m.x m.y hr, hp, Option.some_bind]
      simp only [hpos, if_true]
    refine ⟨m.x, m.y, _, he, hg, ?_, rfl, hopp, fun h => ?_, fun _ => ⟨hr, _, hpos, hp⟩⟩
    · rw [he, Option.some_bind, hg, Option.some_bind]
    · exact absurd h.1 (inRange_ne_pass _ _ hr)

theorem ai_turn_step_witness :
    (PIECE_WHITE = PIECE_WHITE ∨ PIECE_WHITE = PIECE_BLACK) ∧
      (AI_HARD = AI_EASY ∨ AI_HARD = AI_MEDIUM ∨ AI_HARD = AI_HARD ∨ AI_HARD = AI_EXPERT) ∧
      (((1000 : Nat) : Int) - 500) % 4294967296 ≥ AI_DELAY ∧
      ∃ x y s2,
        aiMakeMove (boardCopy (fun _ _ => 0) openingBoard) AI_HARD PIECE_WHITE
            MOVE_PASS MOVE_PASS 9 =
          some (boardCopy (fun _ _ => 0) openingBoard, x, y) ∧
        gameDoCurrentTurn { board := openingBoard, turn := PIECE_WHITE } x y true = some s2 ∧
        doAITurn { board := openingBoard, turn := PIECE_WHITE } AI_HARD PIECE_WHITE 500 1000 9 =
          some (s2, true) ∧
        s2.turn = getOpponentPiece PIECE_WHITE ∧ getOpponentPiece PIECE_WHITE ≠ PIECE_WHITE ∧
        ((x = MOVE_PASS ∧ y = MOVE_PASS) → s2.board = openingBoard) ∧
        (¬ (x = MOVE_PASS ∧ y = MOVE_PASS) →
          InRange x y ∧
            ∃ k, 0 < k ∧ boardPlace openingBoard x y PIECE_WHITE = some (s2.board, k)) :=
  ⟨by decide, by decide, by decide,
    ai_turn_step { board := openingBoard, turn := PIECE_WHITE } (by decide) AI_HARD (by decide)
      500 1000 9 (by decide)⟩

end Reversi
